import Mathlib

/-!
Verification development for the search-query-parser repository
(tokenizer, parser, date resolver).

The TypeScript sources are shallowly embedded here:
  - the tokenizer (tokenize and its helpers) as fuel-indexed functions over
    List Char, where the fuel models the number of iterations of the main
    while loop (the loop can fail to advance the cursor, so it is not
    structurally terminating; a result of none means the loop has not
    finished within the given number of iterations, for any fuel);
  - the parser (parse, parseTokens, parseToken, processOrLogic, findOperator,
    validateOperator, buildTerm, parseSize, splitValues) with thrown
    exceptions modelled as Except;
  - the date resolver (parseDate) parameterized by a date environment that
    models the JavaScript host Date facilities (the system clock and the
    built-in date string parser), which are not part of the repository.

Strings are modelled as List Char; JavaScript string primitives
(slice, indexOf, split, toLowerCase, trim) are translated to their
List Char counterparts.
-/

namespace SQP

/-- Convert a string literal to the List Char representation used throughout. -/
def cs (s : String) : List Char := s.toList

/-- The double-quote character. -/
def dqc : Char := Char.ofNat 34

/-- The single-quote character. -/
def sqc : Char := Char.ofNat 39

/-- Token kinds of the tokenizer (TTokenType in types.ts). -/
inductive TType where
  | TEXT
  | QUOTED
  | NEGATED
  | OPERATOR
  | LPAREN
  | RPAREN
  | OR
deriving DecidableEq

/-- A token (TToken in types.ts): kind, decoded value, raw source slice,
0-based offset of the first character in the input. -/
structure Token where
  type : TType
  value : List Char
  raw : List Char
  position : Nat
deriving DecidableEq

/-- The delimiters of readUntilDelimiter in tokenizer.ts:
space, double quote, single quote, parentheses. -/
def isDelim (c : Char) : Bool :=
  decide (c = ' ' ∨ c = dqc ∨ c = sqc ∨ c = '(' ∨ c = ')')

/-- The stop characters of the inline value-reading loops in tokenizer.ts
(comma, space, parentheses, both quotes). -/
def isExtStop (c : Char) : Bool :=
  decide (c = ',' ∨ c = ' ' ∨ c = '(' ∨ c = ')' ∨ c = dqc ∨ c = sqc)

/-- readQuoted of tokenizer.ts, after the opening quote has been skipped:
returns the decoded contents and the number of characters consumed
(including the closing quote when present).  A backslash escapes the
following character; end of input closes the quote silently. -/
def readQuotedGo (qc : Char) : List Char → List Char × Nat
  | [] => ([], 0)
  | [c] => if c = qc then ([], 1) else ([c], 1)
  | c1 :: c2 :: rest =>
    if c1 = '\\' then
      let r := readQuotedGo qc rest
      (c2 :: r.1, r.2 + 2)
    else if c1 = qc then ([], 1)
    else
      let r := readQuotedGo qc (c2 :: rest)
      (c1 :: r.1, r.2 + 1)

/-- The value-continuation loop of the NEGATED branch of tokenize
(tokenizer.ts, the while(true) loop that extends a value ending in a colon
across quoted chunks and comma separators).  Returns the characters appended
to the value and the number of input characters consumed.  Each iteration
that recurses consumes at least the comma, so fuel = remaining length + 1
always suffices; callers pass exactly that. -/
def extLoop : Nat → List Char → List Char × Nat
  | 0, _ => ([], 0)
  | fuel + 1, rest =>
    let chunk : List Char × Nat :=
      match rest with
      | [] => ([], 0)
      | c :: rs =>
        if c = dqc ∨ c = sqc then
          let m := (readQuotedGo c rs).2
          (rest.take (1 + m), 1 + m)
        else
          let part := rest.takeWhile (fun d => !(isExtStop d))
          (part, part.length)
    match rest.drop chunk.2 with
    | c :: rs1 =>
      if c = ',' then
        let r := extLoop fuel rs1
        (chunk.1 ++ ',' :: r.1, chunk.2 + 1 + r.2)
      else (chunk.1, chunk.2)
    | [] => (chunk.1, chunk.2)

/-- The value-extension loop of the OPERATOR branch of tokenize
(tokenizer.ts, the while(true) loop after a key: prefix): reads a further
chunk only when the value so far is empty or ends in a comma, then continues
across comma separators.  Returns the final value and the number of input
characters consumed. -/
def opExt : Nat → List Char → List Char → List Char × Nat
  | 0, fv, _ => (fv, 0)
  | fuel + 1, fv, rest =>
    let step : List Char × Nat :=
      if fv = [] ∨ fv.getLast? = some ',' then
        match rest with
        | [] => (fv, 0)
        | c :: rs =>
          if c = dqc ∨ c = sqc then
            let m := (readQuotedGo c rs).2
            (fv ++ rest.take (1 + m), 1 + m)
          else
            let part := rest.takeWhile (fun d => !(isExtStop d))
            (fv ++ part, part.length)
      else (fv, 0)
    match rest.drop step.2 with
    | c :: rs1 =>
      if c = ',' then
        let r := opExt fuel (step.1 ++ [',']) rs1
        (r.1, step.2 + 1 + r.2)
      else (step.1, step.2)
    | [] => (step.1, step.2)

/-- The regular-text branch of the tokenize main loop (tokenizer.ts):
read a bare run, recognize the OR keyword, recognize key:value operators
(with the value-extension loop), otherwise emit plain text.
Returns the emitted tokens and the new cursor position. -/
def textStep (pos : Nat) (rest : List Char) : List Token × Nat :=
  let text := rest.takeWhile (fun d => !(isDelim d))
  let tl := text.length
  if text = [] then ([], pos + 1)
  else if text.map Char.toUpper = cs "OR" then
    ([⟨.OR, cs "OR", rest.take tl, pos⟩], pos + tl)
  else
    match text.findIdx? (fun d => decide (d = ':')) with
    | some i =>
      if i = 0 then ([⟨.TEXT, text, rest.take tl, pos⟩], pos + tl)
      else
        let key := text.take i
        let fv0 := if i = tl - 1 then ([] : List Char) else text.drop (i + 1)
        let rx := rest.drop tl
        let e := opExt (rx.length + 1) fv0 rx
        let consumed := tl + e.2
        if e.1 ≠ [] ∨ i < tl - 1 then
          ([⟨.OPERATOR, key ++ ':' :: e.1, rest.take consumed, pos⟩], pos + consumed)
        else
          ([⟨.TEXT, text, rest.take consumed, pos⟩], pos + consumed)
    | none => ([⟨.TEXT, text, rest.take tl, pos⟩], pos + tl)

/-- One iteration of the tokenize main loop (tokenizer.ts), at a cursor
that points at a non-space character.  Returns the emitted tokens (zero or
one) and the new cursor position.  The negated-group backtrack of the
source (position minus one after seeing a dash directly before an opening
parenthesis) appears as the pos + c0 result, which can equal pos. -/
def tokStep (input : List Char) (pos : Nat) : List Token × Nat :=
  let rest := input.drop pos
  match rest with
  | [] => ([], pos + 1)
  | c :: r1 =>
    if c = '(' then ([⟨.LPAREN, cs "(", rest.take 1, pos⟩], pos + 1)
    else if c = ')' then ([⟨.RPAREN, cs ")", rest.take 1, pos⟩], pos + 1)
    else if c = '-' then
      match r1 with
      | [] => textStep pos rest
      | nc :: r2 =>
        if nc = ' ' then textStep pos rest
        else if nc = dqc ∨ nc = sqc then
          let rq := readQuotedGo nc r2
          ([⟨.NEGATED, rq.1, rest.take (2 + rq.2), pos⟩], pos + 2 + rq.2)
        else if nc = '(' then
          let u := r1.takeWhile (fun d => !(isDelim d))
          let c0 := u.length
          if u ≠ [] then
            ([⟨.NEGATED, u, rest.take (1 + c0), pos⟩], pos + 1 + c0)
          else if (r1.drop c0).head? = some '(' then ([], pos + c0)
          else ([], pos + 1 + c0)
        else
          let u := r1.takeWhile (fun d => !(isDelim d))
          let c0 := u.length
          if u.getLast? = some ':' then
            let rx := r1.drop c0
            let e := extLoop (rx.length + 1) rx
            let v := u ++ e.1
            if v ≠ [] then
              ([⟨.NEGATED, v, rest.take (1 + c0 + e.2), pos⟩], pos + 1 + c0 + e.2)
            else ([], pos + 1 + c0 + e.2)
          else
            if u ≠ [] then
              ([⟨.NEGATED, u, rest.take (1 + c0), pos⟩], pos + 1 + c0)
            else ([], pos + 1 + c0)
    else if c = dqc ∨ c = sqc then
      let rq := readQuotedGo c r1
      ([⟨.QUOTED, rq.1, rest.take (1 + rq.2), pos⟩], pos + 1 + rq.2)
    else textStep pos rest

/-- Length of the run of leading spaces (skipWhitespace in tokenizer.ts). -/
def countWs (l : List Char) : Nat := (l.takeWhile (fun c => decide (c = ' '))).length

/-- The tokenize main loop, fuel-indexed: each unit of fuel is one iteration
of the source while loop.  none means the loop has not terminated within
the given number of iterations. -/
def tokGo (input : List Char) : Nat → Nat → List Token → Option (List Token)
  | 0, _, _ => none
  | fuel + 1, pos, acc =>
    let pos1 := pos + countWs (input.drop pos)
    if input.drop pos1 = [] then some acc
    else
      let s := tokStep input pos1
      tokGo input fuel s.2 (acc ++ s.1)

/-- tokenize of tokenizer.ts, fuel-indexed. -/
def tokenizeF (fuel : Nat) (input : List Char) : Option (List Token) :=
  tokGo input fuel 0 []

/-- The slice operation of JavaScript strings, on the List Char model:
slice l a b is the segment from index a (inclusive) to b (exclusive). -/
def sliceJS (l : List Char) (a b : Nat) : List Char := (l.drop a).take (b - a)

/-- JavaScript toLowerCase, on the ASCII range relevant to this code. -/
def lowerL (l : List Char) : List Char := l.map Char.toLower

/-- A calendar instant, the model of a valid JavaScript Date value at the
granularity these claims need (year, 1-based month, day). -/
structure JSDate where
  year : Nat
  month : Nat
  day : Nat
deriving DecidableEq

/-- A value stored in a term's date field: a JavaScript Date, or the plain
empty object produced when the NATURAL_DATES lookup in parseDate hits the
inherited constructor property of the object literal (calling it yields an
empty object, which is truthy, so buildTerm attaches it). -/
inductive DateObj where
  | js (d : JSDate)
  | emptyObj
deriving DecidableEq

/-- Result shape of a non-null parseDate value in date.ts: a single date
(possibly the empty-object artifact) or a start-end pair. -/
inductive DateVal where
  | date (d : DateObj)
  | range (a b : JSDate)
deriving DecidableEq

/-- Outcome of parseDate in date.ts: a value, null, or a thrown TypeError.
The throw is the prototype-chain artifact of the plain-object NATURAL_DATES
table: for the normalized value proto-underscore key the inherited accessor
yields a truthy non-function which parseDate then calls. -/
inductive DateOutcome where
  | val (v : DateVal)
  | nullR
  | thrown
deriving DecidableEq

/-- The JavaScript host facilities used by date.ts, which are not repository
code: absParse models parseAbsoluteDate (the behavior of the Date built-in
constructor on a string); relative models the value computed by
resolveRelativeDate (host clock plus calendar arithmetic); natural models
the value computed by a NATURAL_DATES table entry (host clock).
parseDate only forwards to these; all claims about ordering hold for every
environment, and concrete claims use the ISO model js0 below. -/
structure DateEnv where
  absParse : List Char → Option JSDate
  relative : Nat → Char → JSDate
  natural : List Char → JSDate

/-- Whitespace for the model of JavaScript String.prototype.trim. -/
def isWsChar (c : Char) : Bool := decide (c = ' ' ∨ c = '\t' ∨ c = '\n' ∨ c = '\r')

/-- JavaScript trim on the List Char model. -/
def trimL (l : List Char) : List Char :=
  ((l.dropWhile isWsChar).reverse.dropWhile isWsChar).reverse

/-- The keys of the NATURAL_DATES table in date.ts. -/
def natKeys : List (List Char) :=
  [cs "today", cs "yesterday", cs "tomorrow", cs "last week", cs "last month",
   cs "last year", cs "this week", cs "this month", cs "this year"]

/-- Digit run to number (parseInt with radix 10 on an all-digit string). -/
def digitsToNat (l : List Char) : Nat := l.foldl (fun a c => a * 10 + (c.toNat - 48)) 0

/-- The RELATIVE_DATE_REGEX of date.ts, anchored dash, digit run, one unit
character among d h w m y, applied to the already lowercased trimmed value
(so the case-insensitivity flag of the source regex is moot). -/
def relMatch (l : List Char) : Option (Nat × Char) :=
  match l with
  | '-' :: rest =>
    let ds := rest.takeWhile (fun c => c.isDigit)
    if ds = [] then none
    else
      match rest.drop ds.length with
      | [u] =>
        if u = 'd' ∨ u = 'h' ∨ u = 'w' ∨ u = 'm' ∨ u = 'y' then some (digitsToNat ds, u)
        else none
      | _ => none
  | _ => none

/-- JavaScript String.prototype.split on a single separator character. -/
def splitChar (sep : Char) : List Char → List (List Char)
  | [] => [[]]
  | c :: rest =>
    if c = sep then [] :: splitChar sep rest
    else
      match splitChar sep rest with
      | p :: ps => (c :: p) :: ps
      | [] => [[c]]

/-- One candidate split of the range scan in parseDate: join the first i
parts and the remaining parts back with dashes, skip if either side is
empty, and succeed when both sides parse as absolute dates. -/
def rangeTry (env : DateEnv) (parts : List (List Char)) (i : Nat) : Option DateVal :=
  let left := List.intercalate ['-'] (parts.take i)
  let right := List.intercalate ['-'] (parts.drop i)
  if left = [] ∨ right = [] then none
  else
    match env.absParse left, env.absParse right with
    | some a, some b => some (.range a b)
    | _, _ => none

/-- The normalized value parseDate works on: trimmed then lowercased. -/
def dateNorm (value : List Char) : List Char := lowerL (trimL value)

/-- parseDate of date.ts: relative offset, then the NATURAL_DATES lookup
(a JavaScript property access on a plain object literal, so after the nine
own keys the live prototype chain is consulted: of the inherited
Object.prototype keys only two survive the lowercasing, the
double-underscore proto accessor, whose truthy non-function result is then
called and throws a TypeError, and constructor, whose call returns a truthy
empty object), then the whole absolute date, then the dash-split range scan
(first split whose two sides both parse as absolute dates wins); null when
nothing matches. -/
def parseDateG (env : DateEnv) (value : List Char) : DateOutcome :=
  let trimmed := dateNorm value
  match relMatch trimmed with
  | some (n, u) => .val (.date (.js (env.relative n u)))
  | none =>
    if trimmed ∈ natKeys then .val (.date (.js (env.natural trimmed)))
    else if trimmed = cs "__proto__" then .thrown
    else if trimmed = cs "constructor" then .val (.date .emptyObj)
    else
      match env.absParse trimmed with
      | some d => .val (.date (.js d))
      | none =>
        if '-' ∈ trimmed then
          let parts := splitChar '-' trimmed
          if 2 ≤ parts.length then
            match (List.range' 1 (parts.length - 1)).findSome? (rangeTry env parts) with
            | some v => .val v
            | none => .nullR
          else .nullR
        else .nullR

/-- Size comparison kinds (gt, lt, eq in parser.ts). -/
inductive SizeCmp where
  | gt
  | lt
  | eq
deriving DecidableEq

/-- A parsed size: comparison and byte count. -/
structure SizeVal where
  op : SizeCmp
  bytes : Nat
deriving DecidableEq

/-- The unit strings accepted by the parseSize regex tail, an optional
letter among k m g followed by an optional b (lowercased). -/
def sizeUnits : List (List Char) :=
  [[], cs "b", cs "k", cs "kb", cs "m", cs "mb", cs "g", cs "gb"]

/-- parseSize of parser.ts: the regex with optional sign, digit run and
optional unit, binary multipliers chosen by the first letter of the
lowercased unit.  Numeric values are modelled as exact naturals. -/
def parseSize (value : List Char) : Option SizeVal :=
  let sign : Option Char × List Char :=
    match value with
    | c :: rs => if c = '<' ∨ c = '>' ∨ c = '=' then (some c, rs) else (none, value)
    | [] => (none, value)
  let ds := sign.2.takeWhile (fun c => c.isDigit)
  if ds = [] then none
  else
    let lu := lowerL (sign.2.drop ds.length)
    if lu ∈ sizeUnits then
      let op := if sign.1 = some '<' then SizeCmp.lt
        else if sign.1 = some '>' then SizeCmp.gt else SizeCmp.eq
      let mult := if lu.head? = some 'k' then 1024
        else if lu.head? = some 'm' then 1024 * 1024
        else if lu.head? = some 'g' then 1024 * 1024 * 1024
        else 1
      some ⟨op, digitsToNat ds * mult⟩
    else none

/-- The unit strings of the size pattern as the specification states it:
b, kb, mb, gb or nothing. -/
def specSizeUnits : List (List Char) := [[], cs "b", cs "kb", cs "mb", cs "gb"]

/-- The size pattern exactly as the specification words it: an optional
sign among lt gt eq signs, an integer, and an optional unit among
b kb mb gb (case-insensitive), with binary multipliers. -/
def specSizeParse (value : List Char) : Option SizeVal :=
  let sign : Option Char × List Char :=
    match value with
    | c :: rs => if c = '<' ∨ c = '>' ∨ c = '=' then (some c, rs) else (none, value)
    | [] => (none, value)
  let ds := sign.2.takeWhile (fun c => c.isDigit)
  if ds = [] then none
  else
    let lu := lowerL (sign.2.drop ds.length)
    if lu ∈ specSizeUnits then
      let op := if sign.1 = some '<' then SizeCmp.lt
        else if sign.1 = some '>' then SizeCmp.gt else SizeCmp.eq
      let mult := if lu = cs "kb" then 1024
        else if lu = cs "mb" then 1024 * 1024
        else if lu = cs "gb" then 1024 * 1024 * 1024
        else 1
      some ⟨op, digitsToNat ds * mult⟩
    else none

/-- A parsed term (TParsedTerm): kind string, raw value, negation flag,
optional resolved date, date range, size, and subterm list.  A missing
subterm list (none) models the field being absent, as distinct from an
empty or populated array. -/
inductive Term where
  | mk : List Char → List Char → Bool → Option DateObj → Option (JSDate × JSDate) →
         Option SizeVal → Option (List Term) → Term

/-- Kind of a term. -/
def Term.type : Term → List Char
  | .mk ty _ _ _ _ _ _ => ty

/-- Raw string payload of a term. -/
def Term.value : Term → List Char
  | .mk _ v _ _ _ _ _ => v

/-- Negation flag of a term. -/
def Term.negated : Term → Bool
  | .mk _ _ n _ _ _ _ => n

/-- Resolved single date of a term, when present. -/
def Term.date : Term → Option DateObj
  | .mk _ _ _ d _ _ _ => d

/-- Resolved date range of a term, when present. -/
def Term.dateRange : Term → Option (JSDate × JSDate)
  | .mk _ _ _ _ r _ _ => r

/-- Parsed size of a term, when present. -/
def Term.size : Term → Option SizeVal
  | .mk _ _ _ _ _ s _ => s

/-- Subterm list of a term, when present. -/
def Term.terms : Term → Option (List Term)
  | .mk _ _ _ _ _ _ ts => ts

/-- An operator definition (TOperatorDef as used by parser.ts): canonical
name, aliases, value-type string (string, date or size, the field named
type in the source), and whether negation is permitted. -/
structure OpDef where
  name : List Char
  aliases : List (List Char)
  type : List Char
  allowNegation : Bool
deriving DecidableEq

/-- DEFAULT_OPERATORS of parser.ts, copied entry for entry. -/
def DEFAULT_OPERATORS : List OpDef :=
  [⟨cs "from", [cs "f", cs "sender"], cs "string", true⟩,
   ⟨cs "to", [cs "t", cs "recipient"], cs "string", true⟩,
   ⟨cs "subject", [cs "subj", cs "s"], cs "string", true⟩,
   ⟨cs "body", [cs "content", cs "b"], cs "string", true⟩,
   ⟨cs "has", [], cs "string", true⟩,
   ⟨cs "is", [], cs "string", true⟩,
   ⟨cs "in", [cs "folder", cs "box", cs "mailbox"], cs "string", true⟩,
   ⟨cs "date", [cs "d"], cs "date", false⟩,
   ⟨cs "before", [cs "b4", cs "older", cs "older_than"], cs "date", false⟩,
   ⟨cs "after", [cs "af", cs "newer", cs "newer_than"], cs "date", false⟩,
   ⟨cs "label", [cs "tag", cs "l"], cs "string", true⟩,
   ⟨cs "header-k", [cs "hk", cs "header-key"], cs "string", false⟩,
   ⟨cs "header-v", [cs "hv", cs "header-value"], cs "string", false⟩,
   ⟨cs "size", [cs "larger", cs "smaller"], cs "size", false⟩]

/-- Parser options (TParserOptions): user operators and the allow and deny
lists; an absent list (none) is distinct from a present empty list. -/
structure Opts where
  operators : List OpDef
  operatorsAllowed : Option (List (List Char))
  operatorsDisallowed : Option (List (List Char))

/-- Options with no user operators and no policy lists. -/
def defaultOpts : Opts := ⟨[], none, none⟩

/-- The scanning loop of findOperator in parser.ts: first definition whose
name equals the lowercased key, or whose alias list contains it, wins. -/
def fOGo (lk : List Char) : List OpDef → Option OpDef
  | [] => none
  | op :: rest => if op.name = lk ∨ lk ∈ op.aliases then some op else fOGo lk rest

/-- findOperator of parser.ts: lowercase the key, then scan in order. -/
def findOperator (key : List Char) (ops : List OpDef) : Option OpDef :=
  fOGo (lowerL key) ops

/-- The message thrown by validateOperator, with the operator name between
single quotes. -/
def notAllowedMsg (name : List Char) : List Char :=
  cs "Operator " ++ sqc :: name ++ sqc :: cs " is not allowed"

/-- Whether validateOperator in parser.ts would throw for this definition
under these options: a present allow list not containing the name, or a
present deny list containing it. -/
def violatesB (op : OpDef) (o : Opts) : Bool :=
  (match o.operatorsAllowed with
   | some l => decide (op.name ∉ l)
   | none => false) ||
  (match o.operatorsDisallowed with
   | some l => decide (op.name ∈ l)
   | none => false)

/-- The two exception kinds parse can propagate: the policy Error thrown by
validateOperator, and the TypeError surfaced from the NATURAL_DATES
prototype-chain artifact in parseDate. -/
inductive PErr where
  | policy (msg : List Char)
  | typeError
deriving DecidableEq

/-- validateOperator of parser.ts; both throw sites use the same message, so
the function is the single test violatesB with that message. -/
def validateOperator (op : OpDef) (o : Opts) : Except PErr Unit :=
  if violatesB op o then .error (.policy (notAllowedMsg op.name)) else .ok ()

/-- parseOperator of tokenizer.ts on a token value: split at the first
colon, lowercasing the key. -/
def parseOperatorV (v : List Char) : Option (List Char × List Char) :=
  match v.findIdx? (fun d => decide (d = ':')) with
  | none => none
  | some i => some (lowerL (v.take i), v.drop (i + 1))

/-- The character loop of splitValues in parser.ts, with the current chunk
and the open-quote state. -/
def splitValuesGo : List Char → List Char → Option Char → List (List Char)
  | [], cur, _ => if cur = [] then [] else [cur]
  | c :: rest, cur, none =>
    if c = dqc ∨ c = sqc then splitValuesGo rest (cur ++ [c]) (some c)
    else if c = ',' then cur :: splitValuesGo rest [] none
    else splitValuesGo rest (cur ++ [c]) none
  | c :: rest, cur, some qc =>
    if c = qc then splitValuesGo rest (cur ++ [c]) none
    else splitValuesGo rest (cur ++ [c]) (some qc)

/-- splitValues of parser.ts: split a value on commas outside quotes,
keeping the quotes in the pieces; a trailing empty chunk is not pushed. -/
def splitValues (v : List Char) : List (List Char) := splitValuesGo v [] none

/-- The quote-stripping step of parseToken: remove one layer of matching
double or single quotes. -/
def stripQuotes (v : List Char) : List Char :=
  if (v.head? = some dqc ∧ v.getLast? = some dqc) ∨
     (v.head? = some sqc ∧ v.getLast? = some sqc) then (v.drop 1).dropLast
  else v

/-- buildTerm of parser.ts: attach a resolved date, date range or size
according to the value type; a TypeError thrown inside parseDate
propagates out. -/
def buildTerm (env : DateEnv) (ty v : List Char) (neg : Bool) (valueType : List Char) :
    Except PErr Term :=
  if valueType = cs "date" then
    match parseDateG env v with
    | .thrown => .error .typeError
    | .val (.date d) => .ok (.mk ty v neg (some d) none none none)
    | .val (.range a b) => .ok (.mk ty v neg none (some (a, b)) none none)
    | .nullR => .ok (.mk ty v neg none none none none)
  else if valueType = cs "size" then
    match parseSize v with
    | some s => .ok (.mk ty v neg none none (some s) none)
    | none => .ok (.mk ty v neg none none none none)
  else .ok (.mk ty v neg none none none none)

/-- The left-to-right map of buildTerm over a comma-split value list
(values.map in parseToken); the first thrown TypeError propagates, as in
JavaScript evaluation order. -/
def buildList (env : DateEnv) (name : List Char) (neg : Bool) (vt : List Char) :
    List (List Char) → Except PErr (List Term)
  | [] => .ok []
  | v :: rest =>
    match buildTerm env name (stripQuotes v) neg vt with
    | .error e => .error e
    | .ok t =>
      match buildList env name neg vt rest with
      | .error e => .error e
      | .ok ts => .ok (t :: ts)

/-- parseToken of parser.ts.  The null result is the empty list, a single
term a singleton, the negated-list case a longer list.  Thrown policy
errors and TypeErrors thrown inside buildTerm are the error branch. -/
def parseToken (env : DateEnv) (t : Token) (ops : List OpDef) (o : Opts) :
    Except PErr (List Term) :=
  match t.type with
  | .TEXT => .ok [.mk (cs "text") t.value false none none none none]
  | .QUOTED => .ok [.mk (cs "phrase") t.value false none none none none]
  | .NEGATED =>
    let fb : Except PErr (List Term) :=
      .ok [.mk (if dqc ∈ t.raw ∨ sqc ∈ t.raw then cs "phrase" else cs "text")
             t.value true none none none none]
    if ':' ∈ t.value then
      match parseOperatorV t.value with
      | some kv =>
        match findOperator kv.1 ops with
        | some op =>
          if op.allowNegation then
            match validateOperator op o with
            | .error e => .error e
            | .ok _ =>
              let vs := splitValues kv.2
              if 1 < vs.length then buildList env op.name true op.type vs
              else
                match buildTerm env op.name (stripQuotes kv.2) true op.type with
                | .error e => .error e
                | .ok tm => .ok [tm]
          else fb
        | none => fb
      | none => fb
    else fb
  | .OPERATOR =>
    match parseOperatorV t.value with
    | none => .ok []
    | some kv =>
      match findOperator kv.1 ops with
      | some op =>
        match validateOperator op o with
        | .error e => .error e
        | .ok _ =>
          let vs := splitValues kv.2
          if 1 < vs.length then
            match buildList env op.name false op.type vs with
            | .error e => .error e
            | .ok subs =>
              .ok [.mk (cs "or") (cs "OR") false none none none (some subs)]
          else
            match buildTerm env op.name (stripQuotes kv.2) false op.type with
            | .error e => .error e
            | .ok tm => .ok [tm]
      | none => .ok [.mk (cs "text") t.value false none none none none]
  | _ => .ok []

/-- Whether a term is of the or kind (the partition separators of
processOrLogic, which does not distinguish the transient markers from
or terms produced by comma-list expansion). -/
def isOrT (t : Term) : Bool := decide (t.type = cs "or")

/-- The accumulator loop of processOrLogic: current run and collected runs,
partitioning at every term whose kind is the or string. -/
def orSplitGo : List Term → List Term → List (List Term) → List (List Term)
  | [], cur, acc => acc ++ (if cur.isEmpty then [] else [cur])
  | t :: rest, cur, acc =>
    if t.type = cs "or" then
      if cur.isEmpty then orSplitGo rest [] acc else orSplitGo rest [] (acc ++ [cur])
    else orSplitGo rest (cur ++ [t]) acc

/-- Whether a term list contains a term of the or kind. -/
def hasOrB (l : List Term) : Bool := l.any isOrT

/-- A group term wrapping the given subterms (empty value, not negated). -/
def groupOf (g : List Term) : Term := .mk (cs "group") [] false none none none (some g)

/-- The run-representative step of processOrLogic: a singleton run is used
bare, a longer run is wrapped in a group. -/
def repOf (g : List Term) : Term :=
  match g with
  | [x] => x
  | _ => groupOf g

/-- processOrLogic of parser.ts: with no or-kind term the list is returned
unchanged; otherwise the list is partitioned at or-kind terms, and only
when more than one run results is the single collapsed or term (empty
value) returned, else the original list. -/
def processOrLogic (l : List Term) : List Term :=
  if !(hasOrB l) then l
  else
    let gs := orSplitGo l [] []
    if 1 < gs.length then
      [.mk (cs "or") [] false none none none (some (gs.map repOf))]
    else l

/-- The matching-parenthesis scan of parseTokens: starting balance, walk the
tokens, stop at the token that brings the balance to zero; returns the
tokens strictly inside and the tokens after the closing parenthesis. -/
def mpGo : Nat → List Token → Option (List Token × List Token)
  | _, [] => none
  | bal, t :: rest =>
    let b1 := if t.type = .LPAREN then bal + 1 else bal
    let b2 := if t.type = .RPAREN then b1 - 1 else b1
    if b2 = 0 then some ([], rest)
    else
      match mpGo b2 rest with
      | some (inner, after) => some (t :: inner, after)
      | none => none

/-- Find the span of a parenthesized group in the tokens after a GroupOpen. -/
def matchParen (l : List Token) : Option (List Token × List Token) := mpGo 1 l

/-- The term-collection loop of parseTokens in parser.ts, fuel-indexed (each
recursive use strictly shortens the token list, so fuel greater than the
list length always suffices; none is fuel exhaustion).  Matched groups
recurse and wrap non-empty inner results; unmatched parentheses are
skipped; an OR token contributes the transient or marker term; other
tokens go through parseToken, errors aborting the whole parse. -/
def collectF (env : DateEnv) (ops : List OpDef) (o : Opts) :
    Nat → List Token → Option (Except PErr (List Term))
  | 0, _ => none
  | _ + 1, [] => some (.ok [])
  | fuel + 1, t :: rest =>
    if t.type = .LPAREN then
      match matchParen rest with
      | some (inner, after) =>
        match collectF env ops o fuel inner with
        | none => none
        | some (.error e) => some (.error e)
        | some (.ok innerRaw) =>
          let innerTerms := processOrLogic innerRaw
          match collectF env ops o fuel after with
          | none => none
          | some (.error e) => some (.error e)
          | some (.ok restTerms) =>
            some (.ok (if innerTerms.isEmpty then restTerms else groupOf innerTerms :: restTerms))
      | none => collectF env ops o fuel rest
    else if t.type = .RPAREN then collectF env ops o fuel rest
    else if t.type = .OR then
      match collectF env ops o fuel rest with
      | none => none
      | some (.error e) => some (.error e)
      | some (.ok ts) =>
        some (.ok (Term.mk (cs "or") (cs "OR") false none none none none :: ts))
    else
      match parseToken env t ops o with
      | .error e => some (.error e)
      | .ok ts1 =>
        match collectF env ops o fuel rest with
        | none => none
        | some (.error e) => some (.error e)
        | some (.ok ts2) => some (.ok (ts1 ++ ts2))

/-- parseTokens of parser.ts on a token window: collect terms, then apply
the or-collapsing pass. -/
def parseTokensF (env : DateEnv) (ops : List OpDef) (o : Opts) (fuel : Nat)
    (l : List Token) : Option (Except PErr (List Term)) :=
  match collectF env ops o fuel l with
  | none => none
  | some (.error e) => some (.error e)
  | some (.ok ts) => some (.ok (processOrLogic ts))

/-- parse of parser.ts: user operators before the defaults, tokenize, then
parseTokens.  none means the tokenizer loop did not terminate. -/
def parseE (env : DateEnv) (input : List Char) (o : Opts) :
    Option (Except PErr (List Term)) :=
  match tokenizeF (input.length + 1) input with
  | none => none
  | some toks => parseTokensF env (o.operators ++ DEFAULT_OPERATORS) o (toks.length + 1) toks

/-- Two-digit field of an ISO date. -/
def d2 (a b : Char) : Option Nat :=
  if a.isDigit ∧ b.isDigit then some ((a.toNat - 48) * 10 + (b.toNat - 48)) else none

/-- Four-digit field of an ISO date. -/
def d4 (a b c d : Char) : Option Nat :=
  if a.isDigit ∧ b.isDigit ∧ c.isDigit ∧ d.isDigit then
    some (((a.toNat - 48) * 10 + (b.toNat - 48)) * 100 + (c.toNat - 48) * 10 + (d.toNat - 48))
  else none

/-- Days in a month with Gregorian leap years. -/
def daysInMonth (y m : Nat) : Nat :=
  if m = 2 then (if (y % 4 = 0 ∧ y % 100 ≠ 0) ∨ y % 400 = 0 then 29 else 28)
  else if m = 4 ∨ m = 6 ∨ m = 9 ∨ m = 11 then 30 else 31

/-- Model of the JavaScript Date built-in string parser restricted to the
ISO 8601 calendar-date forms YYYY, YYYY-MM and YYYY-MM-DD with component
validation; every other string is rejected.  This stands in for the host
environment (not repository code) on the inputs the claims exercise. -/
def isoDateParse (l : List Char) : Option JSDate :=
  match l with
  | [a, b, c, d] => (d4 a b c d).map (fun y => ⟨y, 1, 1⟩)
  | [a, b, c, d, '-', e, f] =>
    match d4 a b c d, d2 e f with
    | some y, some m => if 1 ≤ m ∧ m ≤ 12 then some ⟨y, m, 1⟩ else none
    | _, _ => none
  | [a, b, c, d, '-', e, f, '-', g, h] =>
    match d4 a b c d, d2 e f, d2 g h with
    | some y, some m, some dd =>
      if 1 ≤ m ∧ m ≤ 12 ∧ 1 ≤ dd ∧ dd ≤ daysInMonth y m then some ⟨y, m, dd⟩ else none
    | _, _, _ => none
  | _ => none

/-- A concrete date environment: the ISO model for absolute dates and a
fixed clock value for the relative and natural branches (which the
concrete claims below never exercise). -/
def js0 : DateEnv := ⟨isoDateParse, fun _ _ => ⟨2024, 6, 15⟩, fun _ => ⟨2024, 6, 15⟩⟩

/-- The tokens whose processing consults validateOperator and would throw:
an OPERATOR token resolving to a registered operator that the policy
rejects, or a NEGATED token with a colon resolving to a registered
negation-permitting operator that the policy rejects. -/
def tokenViolates (ops : List OpDef) (o : Opts) (t : Token) : Bool :=
  match t.type with
  | .OPERATOR =>
    match parseOperatorV t.value with
    | some kv =>
      match findOperator kv.1 ops with
      | some op => violatesB op o
      | none => false
    | none => false
  | .NEGATED =>
    if ':' ∈ t.value then
      match parseOperatorV t.value with
      | some kv =>
        match findOperator kv.1 ops with
        | some op => op.allowNegation && violatesB op o
        | none => false
      | none => false
    else false
  | _ => false

/-- Whether a date value makes parseDate throw: exactly the values whose
trimmed lowercased form is the double-underscore proto key (it never
matches the relative regex and is not an own NATURAL_DATES key, so the
lookup reaches the inherited accessor). -/
def dateThrowsV (v : List Char) : Bool := decide (dateNorm v = cs "__proto__")

/-- The tokens whose processing reaches a buildTerm call that throws the
NATURAL_DATES TypeError: the key resolves to a date-typed operator, the
policy check passes (it runs first), negated tokens additionally need
allowNegation, and some built value normalizes to the throwing key. -/
def tokenThrows (ops : List OpDef) (o : Opts) (t : Token) : Bool :=
  match t.type with
  | .OPERATOR =>
    match parseOperatorV t.value with
    | some kv =>
      match findOperator kv.1 ops with
      | some op =>
        !violatesB op o && decide (op.type = cs "date") &&
          (let vs := splitValues kv.2
           if 1 < vs.length then vs.any (fun v => dateThrowsV (stripQuotes v))
           else dateThrowsV (stripQuotes kv.2))
      | none => false
    | none => false
  | .NEGATED =>
    if ':' ∈ t.value then
      match parseOperatorV t.value with
      | some kv =>
        match findOperator kv.1 ops with
        | some op =>
          op.allowNegation && !violatesB op o && decide (op.type = cs "date") &&
            (let vs := splitValues kv.2
             if 1 < vs.length then vs.any (fun v => dateThrowsV (stripQuotes v))
             else dateThrowsV (stripQuotes kv.2))
        | none => false
      | none => false
    else false
  | _ => false

/-- Maximal runs of elements not satisfying p, in order, with the
p-elements acting as separators and contributing nothing. -/
def runsSplit {α : Type} (p : α → Bool) : List α → List (List α)
  | [] => []
  | t :: rest =>
    if p t then runsSplit p rest
    else
      match rest with
      | [] => [[t]]
      | u :: _ =>
        if p u then [t] :: runsSplit p rest
        else
          match runsSplit p rest with
          | r :: rs => (t :: r) :: rs
          | [] => [[t]]

/-- A pending run prepended to the runs of the remaining list: when the
list starts with a separator the pending run stands alone, otherwise it
merges with the first following run. -/
def consRun {α : Type} (p : α → Bool) (cur : List α) (l : List α) : List (List α) :=
  match l with
  | [] => [cur]
  | u :: _ =>
    if p u then cur :: runsSplit p l
    else
      match runsSplit p l with
      | r :: rs => (cur ++ r) :: rs
      | [] => [cur]

/-- The maximal runs of non-or terms of a term list. -/
def orRuns (l : List Term) : List (List Term) := runsSplit isOrT l

mutual

/-- Every group term has empty value and every or term has empty value or
the literal OR, at every nesting depth. -/
def goodValsT : Term → Bool
  | .mk ty v _ _ _ _ none =>
    (!(decide (ty = cs "group")) || decide (v = [])) &&
    (!(decide (ty = cs "or")) || (decide (v = []) || decide (v = cs "OR")))
  | .mk ty v _ _ _ _ (some l) =>
    ((!(decide (ty = cs "group")) || decide (v = [])) &&
     (!(decide (ty = cs "or")) || (decide (v = []) || decide (v = cs "OR")))) &&
    goodValsL l

/-- goodValsT over a list of terms. -/
def goodValsL : List Term → Bool
  | [] => true
  | t :: rest => goodValsT t && goodValsL rest

end

/-- A leaf term: no date, range, size or subterms. -/
def mkLeaf (ty v : List Char) (neg : Bool) : Term := .mk ty v neg none none none none

/-- The transient or marker term pushed for an OR token. -/
def orMarker : Term := mkLeaf (cs "or") (cs "OR") false

/-- A user-supplied replacement for the built-in from operator, with no
aliases (the replacement scenario of the registry claim). -/
def customFrom : OpDef := ⟨cs "from", [], cs "string", false⟩

/-- The built-in from definition, as listed in DEFAULT_OPERATORS. -/
def builtinFrom : OpDef := ⟨cs "from", [cs "f", cs "sender"], cs "string", true⟩

theorem take_length_take (l : List Char) (k : Nat) :
    l.take ((l.take k).length) = l.take k := by
  rw [List.take_eq_take]
  simp [List.length_take]

theorem slice_take (l : List Char) (pos k : Nat) :
    sliceJS l pos (pos + ((l.drop pos).take k).length) = (l.drop pos).take k := by
  simp only [sliceJS, Nat.add_sub_cancel_left]
  exact take_length_take _ _

/-- Every token emitted by the text branch starts at the cursor and its raw
field is a prefix slice of the remaining input. -/
theorem textStep_raw (pos : Nat) (rest : List Char) :
    ∀ t ∈ (textStep pos rest).1, ∃ k, t.position = pos ∧ t.raw = rest.take k := by
  intro t ht
  unfold textStep at ht
  dsimp only at ht
  repeat' split at ht
  all_goals
    first
      | exact absurd ht (List.not_mem_nil _)
      | (rw [List.mem_singleton] at ht; subst ht; exact ⟨_, rfl, rfl⟩)

/-- Every token emitted by one iteration of the tokenize loop starts at the
cursor and its raw field is a prefix slice of the remaining input. -/
theorem tokStep_raw (input : List Char) (pos : Nat) :
    ∀ t ∈ (tokStep input pos).1,
      ∃ k, t.position = pos ∧ t.raw = (input.drop pos).take k := by
  intro t ht
  unfold tokStep at ht
  dsimp only at ht
  split at ht
  · exact absurd ht (List.not_mem_nil _)
  · rename_i heq
    repeat' split at ht
    all_goals
      first
        | exact absurd ht (List.not_mem_nil _)
        | (rw [List.mem_singleton] at ht; subst ht; exact ⟨_, rfl, by rw [heq]⟩)
        | (rcases textStep_raw _ _ _ ht with ⟨k, hp, hr⟩; exact ⟨k, hp, by rw [hr, heq]⟩)

/-- Soundness of the tokenize loop for the raw-slice property: every token
in a completed run whose accumulator already satisfies it satisfies
raw = slice of the input at its position of the raw length. -/
theorem tokGo_raw (input : List Char) :
    ∀ fuel pos acc toks, tokGo input fuel pos acc = some toks →
      (∀ t ∈ acc, t.raw = sliceJS input t.position (t.position + t.raw.length)) →
      ∀ t ∈ toks, t.raw = sliceJS input t.position (t.position + t.raw.length) := by
  intro fuel
  induction fuel with
  | zero => intro pos acc toks h; exact absurd h (by simp [tokGo])
  | succ f ih =>
    intro pos acc toks h hacc
    rw [tokGo] at h
    split at h
    · cases h
      exact hacc
    · refine ih _ _ _ h ?_
      intro t ht
      rcases List.mem_append.1 ht with h1 | h2
      · exact hacc t h1
      · rcases tokStep_raw input _ t h2 with ⟨k, hp, hr⟩
        rw [hp, hr]
        exact (slice_take input _ k).symm

/-- C10: for every input on which tokenize terminates, each emitted token's
raw field is exactly the source slice at its recorded position, of the raw
field's own length (raw equals slice input position position-plus-length). -/
theorem tokenize_raw_is_source_slice (input : List Char) (fuel : Nat)
    (toks : List Token) (h : tokenizeF fuel input = some toks) :
    ∀ t ∈ toks, t.raw = sliceJS input t.position (t.position + t.raw.length) := by
  exact tokGo_raw input fuel 0 [] toks h (by intro t ht; simp at ht)

/-- Witness for C10 at a concrete input with a negated atom and a quoted
phrase: tokenize terminates and the slice property holds for each token. -/
theorem tokenize_raw_is_source_slice_witness :
    tokenizeF 9 (cs "-a (x)") =
      some [⟨.NEGATED, cs "a", cs "-a", 0⟩, ⟨.LPAREN, cs "(", cs "(", 3⟩,
            ⟨.TEXT, cs "x", cs "x", 4⟩, ⟨.RPAREN, cs ")", cs ")", 5⟩] ∧
    (⟨.NEGATED, cs "a", cs "-a", 0⟩ : Token).raw =
      sliceJS (cs "-a (x)") 0 (0 + (cs "-a").length) := by
  refine ⟨by decide, ?_⟩
  exact tokenize_raw_is_source_slice (cs "-a (x)") 9
    [⟨.NEGATED, cs "a", cs "-a", 0⟩, ⟨.LPAREN, cs "(", cs "(", 3⟩,
     ⟨.TEXT, cs "x", cs "x", 4⟩, ⟨.RPAREN, cs ")", cs ")", 5⟩]
    (by decide) ⟨.NEGATED, cs "a", cs "-a", 0⟩ (by decide)

/-- The tokenize loop makes no progress on the input consisting of a dash
directly followed by an opening parenthesis: one full iteration emits no
token and returns the cursor to the dash. -/
theorem tokGo_stuck (input : List Char) (pos : Nat)
    (hne : input.drop (pos + countWs (input.drop pos)) ≠ [])
    (hstep : tokStep input (pos + countWs (input.drop pos)) = ([], pos)) :
    ∀ fuel acc, tokGo input fuel pos acc = none := by
  intro fuel
  induction fuel with
  | zero => intro acc; rfl
  | succ f ih =>
    intro acc
    rw [tokGo]
    split
    · exact absurd (by assumption) hne
    · rw [hstep]
      simpa using ih acc

/-- C1 (failing input): tokenize never terminates on the inputs where a
dash is directly followed by an opening parenthesis, for any number of loop
iterations; consequently parse diverges there as well.  The claim (and the
specification) state that tokenize terminates on every input, including
these; the backtracking cursor decrement returns the loop to the identical
state instead. -/
theorem tokenize_diverges_on_dash_lparen :
    (∀ fuel, tokenizeF fuel (cs "-(") = none) ∧
    (∀ fuel, tokenizeF fuel (cs "-(a)") = none) ∧
    parseE js0 (cs "-(") defaultOpts = none ∧
    parseE js0 (cs "-(a)") defaultOpts = none := by
  refine ⟨fun fuel => ?_, fun fuel => ?_, ?_, ?_⟩
  · exact tokGo_stuck (cs "-(") 0 (by decide) (by decide) fuel []
  · exact tokGo_stuck (cs "-(a)") 0 (by decide) (by decide) fuel []
  · rfl
  · rfl

/-- C2: parsing the operator-key, quoted value and comma continuation input
yields exactly one Or term whose subterms are the two to leaf terms with
values String 1 (quotes stripped) and String2; the lexer reassembled the
whole input into a single operator token first. -/
theorem parse_quoted_comma_list_or :
    tokenizeF 22 (cs "to:\"String 1\",String2") =
      some [⟨.OPERATOR, cs "to:\"String 1\",String2", cs "to:\"String 1\",String2", 0⟩] ∧
    parseE js0 (cs "to:\"String 1\",String2") defaultOpts =
      some (.ok [Term.mk (cs "or") (cs "OR") false none none none
        (some [mkLeaf (cs "to") (cs "String 1") false,
               mkLeaf (cs "to") (cs "String2") false])]) := by
  exact ⟨by decide, rfl⟩

/-- Membership of the findOperator scan result in the scanned list. -/
theorem fOGo_mem (lk : List Char) : ∀ ops op, fOGo lk ops = some op → op ∈ ops := by
  intro ops
  induction ops with
  | nil => intro op h; simp [fOGo] at h
  | cons u rest ih =>
    intro op h
    rw [fOGo] at h
    split at h
    · cases h
      exact List.mem_cons_self _ _
    · exact List.mem_cons_of_mem _ (ih op h)

/-- C4 counterexample: after registering a user operator named from (no
aliases), the built-in from definition, with its aliases intact, is still
resolved through its alias sender, although the claim states that neither
the built-in definition nor its aliases resolve to the built-in anymore. -/
theorem registry_alias_resolves_builtin_after_replacement :
    findOperator (cs "sender") (customFrom :: DEFAULT_OPERATORS) = some builtinFrom ∧
    builtinFrom ≠ customFrom ∧ builtinFrom ∈ DEFAULT_OPERATORS := by
  exact ⟨by decide, by decide, by decide⟩

/-- C4 (amended): the registry is consulted in order with the user
definitions first; a definition matches when its name equals the
lowercased key verbatim or its alias list contains the lowercased key
verbatim, and the first match wins, so a user definition with a built-in
name shadows the built-in only for the keys the user definition itself
matches, while the built-in stays in the registry and its aliases still
resolve to it; the lookup is case-insensitive in the queried key only. -/
theorem registry_ordered_shadowing :
    (∀ key ops op, findOperator key ops = some op → op ∈ ops) ∧
    (∀ (key : List Char) u rest, (u.name = lowerL key ∨ lowerL key ∈ u.aliases) →
        findOperator key (u :: rest) = some u) ∧
    (∀ (key : List Char) u rest, ¬(u.name = lowerL key ∨ lowerL key ∈ u.aliases) →
        findOperator key (u :: rest) = findOperator key rest) ∧
    findOperator (cs "from") (customFrom :: DEFAULT_OPERATORS) = some customFrom ∧
    findOperator (cs "FROM") (customFrom :: DEFAULT_OPERATORS) = some customFrom ∧
    findOperator (cs "sender") (customFrom :: DEFAULT_OPERATORS) = some builtinFrom ∧
    findOperator (cs "SENDER") (customFrom :: DEFAULT_OPERATORS) = some builtinFrom := by
  refine ⟨fun key ops op h => fOGo_mem _ ops op h, ?_, ?_, by decide, by decide, by decide, by decide⟩
  · intro key u rest h
    unfold findOperator fOGo
    rw [if_pos h]
  · intro key u rest h
    unfold findOperator
    rw [fOGo, if_neg h]

/-- Witness for the amended registry claim: the first-match rule applied at
the concrete shadowed key from. -/
theorem registry_ordered_shadowing_witness :
    (customFrom.name = lowerL (cs "from") ∨ lowerL (cs "from") ∈ customFrom.aliases) ∧
    findOperator (cs "from") (customFrom :: DEFAULT_OPERATORS) = some customFrom := by
  exact ⟨by decide,
    registry_ordered_shadowing.2.1 (cs "from") customFrom DEFAULT_OPERATORS (by decide)⟩

/-- C9: a negated key:value atom whose key resolves to a registered
operator with allowNegation false never consults the allow or deny policy
and never raises, and becomes a single negated text term (phrase when the
raw token contains a quote character) carrying the whole original token
value; concretely, for -size:1mb the result is independent of any policy
lists, including ones that reject size. -/
theorem negated_nonnegatable_skips_policy :
    (∀ (env : DateEnv) (ops : List OpDef) (o : Opts) (t : Token)
        (key v : List Char) (op : OpDef),
      t.type = .NEGATED → (':' ∈ t.value) → parseOperatorV t.value = some (key, v) →
      findOperator key ops = some op → op.allowNegation = false →
      parseToken env t ops o =
        .ok [mkLeaf (if dqc ∈ t.raw ∨ sqc ∈ t.raw then cs "phrase" else cs "text")
              t.value true]) ∧
    (∀ al dl, parseE js0 (cs "-size:1mb") ⟨[], al, dl⟩ =
        some (.ok [mkLeaf (cs "text") (cs "size:1mb") true])) ∧
    (∀ al dl, parseE js0 (cs "-size:\"1mb\"") ⟨[], al, dl⟩ =
        some (.ok [mkLeaf (cs "phrase") (cs "size:\"1mb\"") true])) ∧
    (∀ al dl, parseE js0 (cs "-date:today") ⟨[], al, dl⟩ =
        some (.ok [mkLeaf (cs "text") (cs "date:today") true])) := by
  refine ⟨?_, fun al dl => rfl, fun al dl => rfl, fun al dl => rfl⟩
  intro env ops o t key v op hty hcol hpo hfo hneg
  obtain ⟨ty, tv, traw, tpos⟩ := t
  simp only [Token.type] at hty
  subst hty
  simp only [Token.value, Token.raw] at hcol hpo ⊢
  unfold parseToken
  dsimp only
  rw [if_pos hcol]
  simp only [hpo, hfo, hneg, mkLeaf]
  simp

/-- Witness for the negated non-negatable operator claim at the concrete
size atom with the size operator in the deny list. -/
theorem negated_nonnegatable_skips_policy_witness :
    parseToken js0 ⟨.NEGATED, cs "size:1mb", cs "-size:1mb", 0⟩ DEFAULT_OPERATORS
        ⟨[], none, some [cs "size"]⟩ =
      .ok [mkLeaf (cs "text") (cs "size:1mb") true] := by
  exact negated_nonnegatable_skips_policy.1 js0 DEFAULT_OPERATORS
    ⟨[], none, some [cs "size"]⟩ ⟨.NEGATED, cs "size:1mb", cs "-size:1mb", 0⟩
    (cs "size") (cs "1mb") ⟨cs "size", [cs "larger", cs "smaller"], cs "size", false⟩
    rfl (by decide) (by decide) (by decide) rfl

/-- Every value matching the size pattern as the specification words it is
accepted by the implementation with the same comparison and byte count
(the implementation regex accepts strictly more: bare k, m, g units). -/
theorem spec_size_subsumed : ∀ v r, specSizeParse v = some r → parseSize v = some r := by
  intro v r h
  unfold specSizeParse at h
  unfold parseSize
  dsimp only at h ⊢
  split at h
  · exact Option.noConfusion h
  · rename_i hds
    rw [if_neg hds]
    split at h
    · rename_i hlu
      simp only [specSizeUnits, List.mem_cons, List.not_mem_nil, or_false] at hlu
      rcases hlu with h1 | h1 | h1 | h1 | h1 <;>
        · rw [h1] at h ⊢
          split
          · exact h
          · rename_i hno
            exact absurd (by decide) hno
    · exact Option.noConfusion h

/-- C8 counterexample: the value 5k does not match the stated pattern with
units b, kb, mb, gb, yet the code parses it and sets size to equal 5120
bytes, where the claim says a non-matching size string leaves size unset. -/
theorem size_bare_unit_sets_size :
    specSizeParse (cs "5k") = none ∧
    parseSize (cs "5k") = some ⟨SizeCmp.eq, 5120⟩ ∧
    parseE js0 (cs "size:5k") defaultOpts =
      some (.ok [Term.mk (cs "size") (cs "5k") false none none
        (some ⟨SizeCmp.eq, 5120⟩) none]) := by
  exact ⟨by decide, by decide, rfl⟩

/-- C8 (amended): size values are parsed by the pattern with an optional
sign, an integer, and an optional case-insensitive unit among b, kb, mb,
gb, and also the bare letters k, m, g (which behave like kb, mb, gb);
comparison defaults to equal without a sign, the unit defaults to bytes,
and multipliers are binary; every string matching the stated b, kb, mb,
gb pattern parses exactly as the claim says, a non-matching string leaves
size unset with the term still produced. -/
theorem size_value_parsing :
    (∀ v r, specSizeParse v = some r → parseSize v = some r) ∧
    parseSize (cs "5k") = some ⟨SizeCmp.eq, 5120⟩ ∧
    parseSize (cs ">1mb") = some ⟨SizeCmp.gt, 1048576⟩ ∧
    parseSize (cs ">1MB") = some ⟨SizeCmp.gt, 1048576⟩ ∧
    parseSize (cs "=2B") = some ⟨SizeCmp.eq, 2⟩ ∧
    parseSize (cs ">3gb") = some ⟨SizeCmp.gt, 3221225472⟩ ∧
    parseSize (cs "12x") = none ∧
    parseSize (cs "huge") = none ∧
    parseE js0 (cs "size:<100kb") defaultOpts =
      some (.ok [Term.mk (cs "size") (cs "<100kb") false none none
        (some ⟨SizeCmp.lt, 102400⟩) none]) ∧
    parseE js0 (cs "size:500") defaultOpts =
      some (.ok [Term.mk (cs "size") (cs "500") false none none
        (some ⟨SizeCmp.eq, 500⟩) none]) ∧
    parseE js0 (cs "size:huge") defaultOpts =
      some (.ok [Term.mk (cs "size") (cs "huge") false none none none none]) := by
  exact ⟨spec_size_subsumed, by decide, by decide, by decide, by decide, by decide,
    by decide, by decide, rfl, rfl, rfl⟩

/-- Witness for the amended size claim: the pattern implication applied at
the concrete value of the less-than kilobyte example. -/
theorem size_value_parsing_witness :
    specSizeParse (cs "<100kb") = some ⟨SizeCmp.lt, 102400⟩ ∧
    parseSize (cs "<100kb") = some ⟨SizeCmp.lt, 102400⟩ := by
  exact ⟨by decide, size_value_parsing.1 (cs "<100kb") ⟨SizeCmp.lt, 102400⟩ (by decide)⟩

/-- The first-success characterization of findSome? over an ascending index
range: a some result is produced at some index, and every smaller index in
the range produced none. -/
theorem findSome_range' {b2 : Type} (f : Nat → Option b2) :
    ∀ (n s : Nat) (b : b2), (List.range' s n).findSome? f = some b →
      ∃ i, s ≤ i ∧ i < s + n ∧ f i = some b ∧ ∀ j, s ≤ j → j < i → f j = none := by
  intro n
  induction n with
  | zero => intro s b h; simp [List.range'] at h
  | succ m ih =>
    intro s b h
    rw [List.range'_succ, List.findSome?_cons] at h
    cases hfs : f s with
    | some c =>
      rw [hfs] at h
      cases h
      exact ⟨s, Nat.le_refl s, by omega, hfs, fun j h1 h2 => absurd h2 (by omega)⟩
    | none =>
      rw [hfs] at h
      rcases ih (s + 1) b h with ⟨i, h1, h2, h3, h4⟩
      refine ⟨i, by omega, by omega, h3, fun j hj1 hj2 => ?_⟩
      rcases Nat.eq_or_lt_of_le hj1 with he | hl
      · rw [← he]
        exact hfs
      · exact h4 j hl hj2

/-- C5 counterexample: parseDate does not return null and does not stay
silent on every unmatched value: the NATURAL_DATES lookup is a JavaScript
property access on a plain object literal, so the normalized value
consisting of the inherited proto accessor key throws a TypeError, and the
inherited constructor key yields a truthy empty object that is returned as
a non-null date result, although neither value matches the relative
pattern, the nine natural keys, the absolute parser or the range scan. -/
theorem date_prototype_chain_cx :
    parseDateG js0 (cs "__proto__") = .thrown ∧
    parseDateG js0 (cs "constructor") = .val (.date .emptyObj) ∧
    dateNorm (cs "__proto__") ∉ natKeys ∧
    dateNorm (cs "constructor") ∉ natKeys ∧
    relMatch (cs "__proto__") = none ∧ relMatch (cs "constructor") = none ∧
    isoDateParse (cs "__proto__") = none ∧ isoDateParse (cs "constructor") = none := by
  decide

/-- C5 (amended): date resolution order.  A single ISO date resolves to a
single date, never a range; the double-date string resolves to the range
with start in January 2023 and end in December 2023; for every environment,
a relative-offset match wins first, then an own natural-date key, then the
two prototype-chain artifacts (the proto key throws a TypeError, the
constructor key returns the truthy empty object), then a whole absolute
date; a range result is only produced when all of these fail, the
normalized value contains a dash, and the first dash-split (scanning left
to right) whose two sides both parse absolutely provides the range; when
nothing matches the result is null.  Apart from the single proto-key
TypeError artifact the function never raises. -/
theorem date_resolution_order :
    parseDateG js0 (cs "2024-01-01") = .val (.date (.js ⟨2024, 1, 1⟩)) ∧
    parseDateG js0 (cs "2023-01-01-2023-12-31") =
      .val (.range ⟨2023, 1, 1⟩ ⟨2023, 12, 31⟩) ∧
    (∀ env v n u, relMatch (dateNorm v) = some (n, u) →
        parseDateG env v = .val (.date (.js (env.relative n u)))) ∧
    (∀ env v, relMatch (dateNorm v) = none → dateNorm v ∈ natKeys →
        parseDateG env v = .val (.date (.js (env.natural (dateNorm v))))) ∧
    (∀ env v, dateNorm v = cs "__proto__" → parseDateG env v = .thrown) ∧
    (∀ env v, dateNorm v = cs "constructor" →
        parseDateG env v = .val (.date .emptyObj)) ∧
    (∀ env v d, relMatch (dateNorm v) = none → dateNorm v ∉ natKeys →
        dateNorm v ≠ cs "__proto__" → dateNorm v ≠ cs "constructor" →
        env.absParse (dateNorm v) = some d →
        parseDateG env v = .val (.date (.js d))) ∧
    (∀ env v a b, parseDateG env v = .val (.range a b) →
        relMatch (dateNorm v) = none ∧ dateNorm v ∉ natKeys ∧
        dateNorm v ≠ cs "__proto__" ∧ dateNorm v ≠ cs "constructor" ∧
        env.absParse (dateNorm v) = none ∧ '-' ∈ dateNorm v ∧
        2 ≤ (splitChar '-' (dateNorm v)).length ∧
        ∃ i, 1 ≤ i ∧ i < (splitChar '-' (dateNorm v)).length ∧
          rangeTry env (splitChar '-' (dateNorm v)) i = some (.range a b) ∧
          ∀ j, 1 ≤ j → j < i → rangeTry env (splitChar '-' (dateNorm v)) j = none) ∧
    (∀ env v, relMatch (dateNorm v) = none → dateNorm v ∉ natKeys →
        dateNorm v ≠ cs "__proto__" → dateNorm v ≠ cs "constructor" →
        env.absParse (dateNorm v) = none →
        (∀ i, rangeTry env (splitChar '-' (dateNorm v)) i = none) →
        parseDateG env v = .nullR) := by
  refine ⟨by decide, by decide, ?_, ?_, ?_, ?_, ?_, ?_, ?_⟩
  · intro env v n u h
    unfold parseDateG
    dsimp only
    rw [h]
  · intro env v h1 h2
    unfold parseDateG
    dsimp only
    rw [h1, if_pos h2]
  · intro env v h
    have h1 : relMatch (dateNorm v) = none := by rw [h]; decide
    have h2 : dateNorm v ∉ natKeys := by rw [h]; decide
    unfold parseDateG
    dsimp only
    rw [h1, if_neg h2, if_pos h]
  · intro env v h
    have h1 : relMatch (dateNorm v) = none := by rw [h]; decide
    have h2 : dateNorm v ∉ natKeys := by rw [h]; decide
    have h3 : dateNorm v ≠ cs "__proto__" := by rw [h]; decide
    unfold parseDateG
    dsimp only
    rw [h1, if_neg h2, if_neg h3, if_pos h]
  · intro env v d h1 h2 h3 h4 h5
    unfold parseDateG
    dsimp only
    rw [h1, if_neg h2, if_neg h3, if_neg h4, h5]
  · intro env v a b h
    unfold parseDateG at h
    dsimp only at h
    cases hrel : relMatch (dateNorm v) with
    | some p =>
      rw [hrel] at h
      exact absurd (DateOutcome.val.inj h) (by intro hx; cases hx)
    | none =>
      rw [hrel] at h
      dsimp only at h
      split at h
      · exact absurd (DateOutcome.val.inj h) (by intro hx; cases hx)
      · rename_i hnat
        split at h
        · exact DateOutcome.noConfusion h
        · rename_i hproto
          split at h
          · exact absurd (DateOutcome.val.inj h) (by intro hx; cases hx)
          · rename_i hctor
            cases habs : env.absParse (dateNorm v) with
            | some d =>
              rw [habs] at h
              dsimp only at h
              exact absurd (DateOutcome.val.inj h) (by intro hx; cases hx)
            | none =>
              rw [habs] at h
              dsimp only at h
              split at h
              · rename_i hdash
                split at h
                · rename_i hlen
                  split at h
                  · rename_i dv hfs
                    obtain rfl := DateOutcome.val.inj h
                    rcases findSome_range' (rangeTry env (splitChar '-' (dateNorm v)))
                      ((splitChar '-' (dateNorm v)).length - 1) 1 (DateVal.range a b) hfs with
                      ⟨i, hi1, hi2, hi3, hi4⟩
                    exact ⟨rfl, hnat, hproto, hctor, rfl, hdash, hlen, i, hi1,
                      by omega, hi3, hi4⟩
                  · exact DateOutcome.noConfusion h
                · exact DateOutcome.noConfusion h
              · exact DateOutcome.noConfusion h
  · intro env v h1 h2 h3 h4 h5 h6
    unfold parseDateG
    dsimp only
    rw [h1]
    dsimp only
    rw [if_neg h2, if_neg h3, if_neg h4, h5]
    dsimp only
    split
    · split
      · rw [List.findSome?_eq_none_iff.mpr (fun x _ => h6 x)]
      · rfl
    · rfl

/-- Witness for the amended date resolution claim: the range implication
applied at the concrete double-date string, and the TypeError implication
applied at a padded uppercase spelling of the proto key, both under the
ISO environment. -/
theorem date_resolution_order_witness :
    parseDateG js0 (cs "2023-01-01-2023-12-31") =
      .val (.range ⟨2023, 1, 1⟩ ⟨2023, 12, 31⟩) ∧
    (relMatch (dateNorm (cs "2023-01-01-2023-12-31")) = none ∧
     dateNorm (cs "2023-01-01-2023-12-31") ∉ natKeys ∧
     dateNorm (cs "2023-01-01-2023-12-31") ≠ cs "__proto__" ∧
     dateNorm (cs "2023-01-01-2023-12-31") ≠ cs "constructor" ∧
     js0.absParse (dateNorm (cs "2023-01-01-2023-12-31")) = none ∧
     '-' ∈ dateNorm (cs "2023-01-01-2023-12-31") ∧
     2 ≤ (splitChar '-' (dateNorm (cs "2023-01-01-2023-12-31"))).length ∧
     ∃ i, 1 ≤ i ∧ i < (splitChar '-' (dateNorm (cs "2023-01-01-2023-12-31"))).length ∧
       rangeTry js0 (splitChar '-' (dateNorm (cs "2023-01-01-2023-12-31"))) i =
         some (.range ⟨2023, 1, 1⟩ ⟨2023, 12, 31⟩) ∧
       ∀ j, 1 ≤ j → j < i →
         rangeTry js0 (splitChar '-' (dateNorm (cs "2023-01-01-2023-12-31"))) j = none) ∧
    parseDateG js0 (cs "  __PROTO__  ") = .thrown := by
  exact ⟨by decide,
    date_resolution_order.2.2.2.2.2.2.2.1 js0 (cs "2023-01-01-2023-12-31")
      ⟨2023, 1, 1⟩ ⟨2023, 12, 31⟩ (by decide),
    date_resolution_order.2.2.2.2.1 js0 (cs "  __PROTO__  ") (by decide)⟩

theorem runsSplit_cons_neg {α : Type} (p : α → Bool) (t : α) (rest : List α)
    (ht : p t = false) : runsSplit p (t :: rest) = consRun p [t] rest := by
  rw [runsSplit.eq_def]
  dsimp only
  simp only [ht, Bool.false_eq_true, if_false]
  cases rest with
  | nil => rfl
  | cons u rs => rfl

theorem runsSplit_ne_nil {α : Type} (p : α → Bool) (t : α) (rest : List α)
    (ht : p t = false) : runsSplit p (t :: rest) ≠ [] := by
  rw [runsSplit.eq_def]
  dsimp only
  simp only [ht, Bool.false_eq_true, if_false]
  cases rest with
  | nil => simp
  | cons u rs =>
    cases hpu : p u
    · simp only [hpu, Bool.false_eq_true, if_false]
      cases hrr : runsSplit p (u :: rs) <;> simp
    · simp [hpu]

theorem consRun_append {α : Type} (p : α → Bool) (t : α) (rest : List α) (cur : List α)
    (ht : p t = false) :
    consRun p (cur ++ [t]) rest =
      match runsSplit p (t :: rest) with
      | r :: rs => (cur ++ r) :: rs
      | [] => [cur ++ [t]] := by
  rw [runsSplit_cons_neg p t rest ht]
  cases rest with
  | nil => rfl
  | cons u rs =>
    simp only [consRun.eq_def]
    cases hpu : p u
    · simp only [hpu, Bool.false_eq_true, if_false]
      cases hrr : runsSplit p (u :: rs) with
      | nil => rfl
      | cons r rs2 => simp [List.append_assoc]
    · simp [hpu]

theorem orSplitGo_spec : ∀ (l cur : List Term) (acc : List (List Term)),
    orSplitGo l cur acc =
      acc ++ (if cur.isEmpty then orRuns l else consRun isOrT cur l) := by
  intro l
  induction l with
  | nil =>
    intro cur acc
    cases cur with
    | nil => simp [orSplitGo, orRuns, runsSplit]
    | cons x xs => simp [orSplitGo, consRun]
  | cons t rest ih =>
    intro cur acc
    rw [orSplitGo]
    by_cases h : t.type = cs "or"
    · have hp : isOrT t = true := by simp [isOrT, h]
      rw [if_pos h]
      cases hc : cur.isEmpty
      · simp only [Bool.false_eq_true, if_false]
        rw [ih [] (acc ++ [cur])]
        simp only [List.isEmpty_nil, if_true]
        rw [consRun.eq_def]
        dsimp only
        simp only [hp, if_true]
        conv_rhs => rw [runsSplit.eq_def]
        dsimp only
        simp only [hp, if_true, orRuns]
        simp [List.append_assoc]
      · have hce : cur = [] := by
          cases cur
          · rfl
          · simp at hc
        subst hce
        simp only [if_true]
        rw [ih [] acc]
        simp only [List.isEmpty_nil, if_true, orRuns]
        conv_rhs => rw [runsSplit.eq_def]
        dsimp only
        simp only [hp, if_true]
    · have hp : isOrT t = false := by simp [isOrT, h]
      rw [if_neg h]
      rw [ih (cur ++ [t]) acc]
      have hne : (cur ++ [t]).isEmpty = false := by simp
      simp only [hne, Bool.false_eq_true, if_false]
      cases hc : cur.isEmpty
      · simp only [Bool.false_eq_true, if_false]
        rw [consRun_append isOrT t rest cur hp]
        conv_rhs => rw [consRun.eq_def]
        dsimp only
        cases rest with
        | nil =>
          rw [runsSplit_cons_neg isOrT t [] hp]
          have hcc : consRun isOrT [t] [] = [[t]] := rfl
          rw [hcc]
          simp [hp]
        | cons u rs =>
          simp only [hp, Bool.false_eq_true, if_false]
          cases hrr : runsSplit isOrT (t :: u :: rs) with
          | nil => exact absurd hrr (runsSplit_ne_nil isOrT t (u :: rs) hp)
          | cons r rs2 => rfl
      · have hce : cur = [] := by
          cases cur
          · rfl
          · simp at hc
        subst hce
        simp only [if_true]
        rw [consRun_append isOrT t rest [] hp]
        simp only [orRuns]
        cases hrr : runsSplit isOrT (t :: rest) with
        | nil => exact absurd hrr (runsSplit_ne_nil isOrT t rest hp)
        | cons r rs2 => simp

theorem orSplitGo_eq_orRuns (l : List Term) : orSplitGo l [] [] = orRuns l := by
  rw [orSplitGo_spec l [] []]
  simp

theorem hasOr_false_runs : ∀ l : List Term, hasOrB l = false →
    orRuns l = if l.isEmpty then [] else [l] := by
  intro l
  induction l with
  | nil => intro _; simp [orRuns, runsSplit]
  | cons t rest ih =>
    intro h
    rw [hasOrB, List.any_cons, Bool.or_eq_false_iff] at h
    have hrest := ih h.2
    simp only [orRuns] at hrest ⊢
    rw [runsSplit_cons_neg isOrT t rest h.1]
    cases rest with
    | nil =>
      rw [consRun.eq_def]
      simp
    | cons u rs =>
      rw [consRun.eq_def]
      dsimp only
      have h2 := h.2
      rw [List.any_cons, Bool.or_eq_false_iff] at h2
      simp only [h2.1]
      have hrest2 : runsSplit isOrT (u :: rs) = [u :: rs] := by
        rw [hrest]
        simp
      rw [hrest2]
      simp

theorem hasOr_false_runs_le (l : List Term) (h : hasOrB l = false) :
    (orRuns l).length ≤ 1 := by
  rw [hasOr_false_runs l h]
  cases l <;> simp

/-- C3 counterexample: for the inputs the claim itself names, hello OR and
OR hello, the or-collapsing pass returns the term list unchanged, so the
transient Or marker term (kind or, value OR, no subterms) appears in the
final output and the result is a two-element list, not a single Or term. -/
theorem or_marker_in_output :
    parseE js0 (cs "hello OR") defaultOpts =
      some (.ok [mkLeaf (cs "text") (cs "hello") false, orMarker]) ∧
    parseE js0 (cs "OR hello") defaultOpts =
      some (.ok [orMarker, mkLeaf (cs "text") (cs "hello") false]) ∧
    orMarker.type = cs "or" ∧ orMarker.terms = none ∧
    ([mkLeaf (cs "text") (cs "hello") false, orMarker] : List Term).length = 2 := by
  exact ⟨rfl, rfl, rfl, rfl, rfl⟩

/-- C3 (amended): the or-collapsing pass partitions the term list at every
or-kind term (transient markers and comma-list Or terms alike, the
separators themselves contributing nothing) into maximal runs of non-or
terms; when at least two runs result it returns the single Or term with
empty value whose subterms are the run representatives (a singleton run
bare, a longer run wrapped in a Group); when fewer than two runs result
(no or-kind term, or markers delimiting at most one run as in hello OR or
OR hello) the list is returned unchanged, markers included. -/
theorem or_collapsing :
    (∀ l : List Term, 2 ≤ (orRuns l).length →
        processOrLogic l =
          [Term.mk (cs "or") [] false none none none (some ((orRuns l).map repOf))]) ∧
    (∀ l : List Term, (orRuns l).length < 2 → processOrLogic l = l) := by
  constructor
  · intro l h2
    have hOr : hasOrB l = true := by
      cases hb : hasOrB l
      · have := hasOr_false_runs_le l hb
        omega
      · rfl
    unfold processOrLogic
    dsimp only
    simp only [hOr, Bool.not_true, Bool.false_eq_true, if_false]
    rw [orSplitGo_eq_orRuns]
    rw [if_pos (by omega)]
  · intro l hlt
    unfold processOrLogic
    dsimp only
    cases hb : hasOrB l
    · simp
    · simp only [Bool.not_true, Bool.false_eq_true, if_false]
      rw [orSplitGo_eq_orRuns]
      rw [if_neg (by omega)]

/-- Witness for the amended or-collapsing claim at the marker list of
hello OR world: two runs, collapsed into the single Or term. -/
theorem or_collapsing_witness :
    2 ≤ (orRuns [mkLeaf (cs "text") (cs "h") false, orMarker,
          mkLeaf (cs "text") (cs "w") false]).length ∧
    processOrLogic [mkLeaf (cs "text") (cs "h") false, orMarker,
        mkLeaf (cs "text") (cs "w") false] =
      [Term.mk (cs "or") [] false none none none
        (some ((orRuns [mkLeaf (cs "text") (cs "h") false, orMarker,
          mkLeaf (cs "text") (cs "w") false]).map repOf))] := by
  exact ⟨by decide, or_collapsing.1 _ (by decide)⟩

theorem goodValsL_iff : ∀ l : List Term, goodValsL l = true ↔ ∀ x ∈ l, goodValsT x = true := by
  intro l
  induction l with
  | nil => simp [goodValsL]
  | cons t rest ih =>
    rw [goodValsL]
    simp only [Bool.and_eq_true, List.mem_cons]
    constructor
    · rintro ⟨h1, h2⟩ x (rfl | hx)
      · exact h1
      · exact (ih.1 h2) x hx
    · intro h
      exact ⟨h t (Or.inl rfl), ih.2 (fun x hx => h x (Or.inr hx))⟩

theorem goodValsL_append (a b : List Term) :
    goodValsL (a ++ b) = (goodValsL a && goodValsL b) := by
  induction a with
  | nil => simp [goodValsL]
  | cons t rest ih =>
    rw [List.cons_append, goodValsL, goodValsL, ih, Bool.and_assoc]

theorem goodValsT_leaf (ty v : List Char) (n : Bool) (d : Option DateObj)
    (r : Option (JSDate × JSDate)) (sz : Option SizeVal)
    (h1 : ty ≠ cs "group") (h2 : ty ≠ cs "or") :
    goodValsT (Term.mk ty v n d r sz none) = true := by
  rw [goodValsT]
  simp [h1, h2]

theorem buildTerm_good (env : DateEnv) (ty v : List Char) (n : Bool) (vt : List Char)
    (tm : Term) (h : buildTerm env ty v n vt = .ok tm)
    (h1 : ty ≠ cs "group") (h2 : ty ≠ cs "or") :
    goodValsT tm = true := by
  unfold buildTerm at h
  split at h
  · split at h
    · exact Except.noConfusion h
    · obtain rfl := Except.ok.inj h
      exact goodValsT_leaf _ _ _ _ _ _ h1 h2
    · obtain rfl := Except.ok.inj h
      exact goodValsT_leaf _ _ _ _ _ _ h1 h2
    · obtain rfl := Except.ok.inj h
      exact goodValsT_leaf _ _ _ _ _ _ h1 h2
  · split at h
    · split at h
      · obtain rfl := Except.ok.inj h
        exact goodValsT_leaf _ _ _ _ _ _ h1 h2
      · obtain rfl := Except.ok.inj h
        exact goodValsT_leaf _ _ _ _ _ _ h1 h2
    · obtain rfl := Except.ok.inj h
      exact goodValsT_leaf _ _ _ _ _ _ h1 h2

theorem buildList_good (env : DateEnv) (opname : List Char) (n : Bool)
    (opty : List Char) (h1 : opname ≠ cs "group") (h2 : opname ≠ cs "or") :
    ∀ (vs : List (List Char)) (ts : List Term),
      buildList env opname n opty vs = .ok ts → goodValsL ts = true := by
  intro vs
  induction vs with
  | nil =>
    intro ts h
    obtain rfl := Except.ok.inj h
    rw [goodValsL]
  | cons v rest ih =>
    intro ts h
    rw [buildList] at h
    split at h
    · exact Except.noConfusion h
    · rename_i tm hbt
      split at h
      · exact Except.noConfusion h
      · rename_i ts2 hbl
        obtain rfl := Except.ok.inj h
        rw [goodValsL, Bool.and_eq_true]
        exact ⟨buildTerm_good env _ _ _ _ tm hbt h1 h2, ih ts2 hbl⟩

theorem defaultOps_not_structural : ∀ op ∈ DEFAULT_OPERATORS,
    ¬(op.name = cs "group") ∧ ¬(op.name = cs "or") := by
  intro op hop
  have h : DEFAULT_OPERATORS.all
      (fun op => !(decide (op.name = cs "group")) && !(decide (op.name = cs "or"))) = true := by
    decide
  have := List.all_eq_true.1 h op hop
  simp only [Bool.and_eq_true, Bool.not_eq_true', decide_eq_false_iff_not] at this
  exact this

theorem parseToken_good (env : DateEnv) (t : Token) (o : Opts) (ts : List Term)
    (h : parseToken env t DEFAULT_OPERATORS o = .ok ts) : goodValsL ts = true := by
  have hleaf : ∀ (ty v : List Char) (n : Bool), ty ≠ cs "group" → ty ≠ cs "or" →
      goodValsL [Term.mk ty v n none none none none] = true := by
    intro ty v n h1 h2
    rw [goodValsL, goodValsL]
    simp [goodValsT_leaf ty v n none none none h1 h2]
  unfold parseToken at h
  dsimp only at h
  split at h
  · obtain rfl := Except.ok.inj h
    exact hleaf _ _ _ (by decide) (by decide)
  · obtain rfl := Except.ok.inj h
    exact hleaf _ _ _ (by decide) (by decide)
  · split at h
    · split at h
      · rename_i kv hpo
        split at h
        · rename_i op heq
          have hmem : op ∈ DEFAULT_OPERATORS := fOGo_mem _ _ _ heq
          obtain ⟨h1, h2⟩ := defaultOps_not_structural op hmem
          split at h
          · split at h
            · exact Except.noConfusion h
            · split at h
              · exact buildList_good env op.name true op.type h1 h2 _ _ h
              · split at h
                · exact Except.noConfusion h
                · rename_i tm hbt
                  obtain rfl := Except.ok.inj h
                  rw [goodValsL, goodValsL]
                  simp [buildTerm_good env _ _ _ _ tm hbt h1 h2]
          · obtain rfl := Except.ok.inj h
            refine hleaf _ _ _ ?_ ?_ <;> split <;> decide
        · obtain rfl := Except.ok.inj h
          refine hleaf _ _ _ ?_ ?_ <;> split <;> decide
      · obtain rfl := Except.ok.inj h
        refine hleaf _ _ _ ?_ ?_ <;> split <;> decide
    · obtain rfl := Except.ok.inj h
      refine hleaf _ _ _ ?_ ?_ <;> split <;> decide
  · split at h
    · obtain rfl := Except.ok.inj h
      simp [goodValsL]
    · rename_i kv hpo
      split at h
      · rename_i op heq
        have hmem : op ∈ DEFAULT_OPERATORS := fOGo_mem _ _ _ heq
        obtain ⟨h1, h2⟩ := defaultOps_not_structural op hmem
        split at h
        · exact Except.noConfusion h
        · split at h
          · split at h
            · exact Except.noConfusion h
            · rename_i subs hbl
              obtain rfl := Except.ok.inj h
              rw [goodValsL, goodValsL, goodValsT]
              simp only [Bool.and_true]
              have hm := buildList_good env op.name false op.type h1 h2 _ subs hbl
              simp [hm]
              exact Or.inl (by decide)
          · split at h
            · exact Except.noConfusion h
            · rename_i tm hbt
              obtain rfl := Except.ok.inj h
              rw [goodValsL, goodValsL]
              simp [buildTerm_good env _ _ _ _ tm hbt h1 h2]
      · obtain rfl := Except.ok.inj h
        exact hleaf _ _ _ (by decide) (by decide)
  · obtain rfl := Except.ok.inj h
    simp [goodValsL]

theorem runsSplit_sub {α : Type} (p : α → Bool) :
    ∀ (l : List α) g, g ∈ runsSplit p l → ∀ x ∈ g, x ∈ l := by
  intro l
  induction l with
  | nil => intro g hg; simp [runsSplit] at hg
  | cons t rest ih =>
    intro g hg x hx
    rw [runsSplit.eq_def] at hg
    dsimp only at hg
    cases hpt : p t
    · simp only [hpt, Bool.false_eq_true, if_false] at hg
      cases rest with
      | nil =>
        simp at hg
        subst hg
        simp at hx
        simp [hx]
      | cons u rs =>
        cases hpu : p u
        · simp only [hpu, Bool.false_eq_true, if_false] at hg
          cases hrr : runsSplit p (u :: rs) with
          | nil =>
            rw [hrr] at hg
            simp at hg
            subst hg
            simp at hx
            simp [hx]
          | cons r rs2 =>
            rw [hrr] at hg
            simp only [List.mem_cons] at hg
            rcases hg with rfl | hg2
            · rcases List.mem_cons.1 hx with rfl | hxr
              · simp
              · have hxm : x ∈ u :: rs :=
                  ih r (by rw [hrr]; exact List.mem_cons_self r rs2) x hxr
                exact List.mem_cons_of_mem t hxm
            · have hxm : x ∈ u :: rs :=
                ih g (by rw [hrr]; exact List.mem_cons_of_mem r hg2) x hx
              exact List.mem_cons_of_mem t hxm
        · simp only [hpu] at hg
          simp only [if_pos] at hg
          rcases List.mem_cons.1 hg with rfl | hg2
          · simp at hx
            simp [hx]
          · exact List.mem_cons_of_mem t (ih g hg2 x hx)
    · simp only [hpt, if_pos] at hg
      exact List.mem_cons_of_mem t (ih g hg x hx)

theorem processOr_good (l : List Term) (h : goodValsL l = true) :
    goodValsL (processOrLogic l) = true := by
  unfold processOrLogic
  dsimp only
  split
  · exact h
  · split
    · rw [goodValsL, goodValsL]
      simp only [Bool.and_true]
      rw [goodValsT]
      rw [Bool.and_eq_true]
      constructor
      · decide
      · apply (goodValsL_iff _).2
        intro x hx
        rcases List.mem_map.1 hx with ⟨g, hg, rfl⟩
        rw [orSplitGo_eq_orRuns] at hg
        have hsub : ∀ y ∈ g, y ∈ l := runsSplit_sub isOrT l g hg
        cases g with
        | nil =>
          have hrep0 : repOf ([] : List Term) = groupOf [] := rfl
          rw [hrep0, groupOf, goodValsT, Bool.and_eq_true]
          exact ⟨by decide, by simp [goodValsL]⟩
        | cons y ys =>
          cases ys with
          | nil =>
            have hy := (goodValsL_iff l).1 h y (hsub y (by simp))
            simpa [repOf] using hy
          | cons z zs =>
            have hrep : repOf (y :: z :: zs) = groupOf (y :: z :: zs) := rfl
            rw [hrep, groupOf, goodValsT, Bool.and_eq_true]
            constructor
            · decide
            · exact (goodValsL_iff _).2 (fun w hw => (goodValsL_iff l).1 h w (hsub w hw))
    · exact h

theorem collect_good (env : DateEnv) (o : Opts) :
    ∀ (fuel : Nat) (l : List Token) (res : List Term),
      collectF env DEFAULT_OPERATORS o fuel l = some (.ok res) → goodValsL res = true := by
  intro fuel
  induction fuel with
  | zero => intro l res h; simp [collectF] at h
  | succ f ih =>
    intro l res h
    cases l with
    | nil =>
      rw [collectF] at h
      obtain rfl := Except.ok.inj (Option.some.inj h)
      simp [goodValsL]
    | cons t rest =>
      rw [collectF] at h
      split at h
      · split at h
        · split at h
          · exact Option.noConfusion h
          · exact Except.noConfusion (Option.some.inj h)
          · rename_i innerRaw hinner
            split at h
            · exact Option.noConfusion h
            · exact Except.noConfusion (Option.some.inj h)
            · rename_i restTerms hrest
              obtain rfl := Except.ok.inj (Option.some.inj h)
              have hinnerG := processOr_good _ (ih _ innerRaw hinner)
              have hrestG := ih _ restTerms hrest
              split
              · exact hrestG
              · rw [goodValsL, Bool.and_eq_true]
                refine ⟨?_, hrestG⟩
                rw [groupOf, goodValsT, Bool.and_eq_true]
                exact ⟨by decide, hinnerG⟩
        · exact ih rest res h
      · split at h
        · exact ih rest res h
        · split at h
          · split at h
            · exact Option.noConfusion h
            · exact Except.noConfusion (Option.some.inj h)
            · rename_i ts hts
              obtain rfl := Except.ok.inj (Option.some.inj h)
              rw [goodValsL, Bool.and_eq_true]
              exact ⟨by rw [goodValsT]; decide, ih rest ts hts⟩
          · split at h
            · exact Except.noConfusion (Option.some.inj h)
            · rename_i ts1 hts1
              split at h
              · exact Option.noConfusion h
              · exact Except.noConfusion (Option.some.inj h)
              · rename_i ts2 hts2
                obtain rfl := Except.ok.inj (Option.some.inj h)
                rw [goodValsL_append, Bool.and_eq_true]
                exact ⟨parseToken_good env t o ts1 hts1, ih rest ts2 hts2⟩

/-- C7 counterexample: the comma-list expansion of to:a,b produces an Or
term whose value is the literal OR, not the empty string the claim states
for every Or term. -/
theorem or_term_value_is_OR :
    parseE js0 (cs "to:a,b") defaultOpts =
      some (.ok [Term.mk (cs "or") (cs "OR") false none none none
        (some [mkLeaf (cs "to") (cs "a") false, mkLeaf (cs "to") (cs "b") false])]) ∧
    cs "OR" ≠ ([] : List Char) := by
  exact ⟨rfl, by decide⟩

/-- C7 (amended): in every parse result obtained with the default operator
registry (no user-supplied operators), at every nesting depth, every Group
term has the empty value, and every Or term has either the empty value
(OR-collapsing) or the literal value OR (comma-list expansion, and
markers that survive an uncollapsed window); only leaf terms carry any
other payload. -/
theorem group_or_term_values :
    ∀ (env : DateEnv) (al dl : Option (List (List Char))) (input : List Char)
      (res : List Term),
      parseE env input ⟨[], al, dl⟩ = some (.ok res) → goodValsL res = true := by
  intro env al dl input res h
  unfold parseE at h
  split at h
  · exact Option.noConfusion h
  · rename_i toks htoks
    dsimp only at h
    rw [List.nil_append] at h
    unfold parseTokensF at h
    split at h
    · exact Option.noConfusion h
    · exact Except.noConfusion (Option.some.inj h)
    · rename_i ts hcol
      obtain rfl := Except.ok.inj (Option.some.inj h)
      exact processOr_good _ (collect_good env ⟨[], al, dl⟩ _ _ _ hcol)

/-- Witness for the amended value claim at a concrete parse with a group,
an or-collapse and a comma-list expansion. -/
theorem group_or_term_values_witness :
    parseE js0 (cs "(a OR b) to:x,y") defaultOpts =
      some (.ok [groupOf [Term.mk (cs "or") [] false none none none
          (some [mkLeaf (cs "text") (cs "a") false,
                 mkLeaf (cs "text") (cs "b") false])],
        Term.mk (cs "or") (cs "OR") false none none none
          (some [mkLeaf (cs "to") (cs "x") false,
                 mkLeaf (cs "to") (cs "y") false])]) ∧
    goodValsL [groupOf [Term.mk (cs "or") [] false none none none
          (some [mkLeaf (cs "text") (cs "a") false,
                 mkLeaf (cs "text") (cs "b") false])],
        Term.mk (cs "or") (cs "OR") false none none none
          (some [mkLeaf (cs "to") (cs "x") false,
                 mkLeaf (cs "to") (cs "y") false])] = true := by
  refine ⟨rfl, ?_⟩
  exact group_or_term_values js0 none none (cs "(a OR b) to:x,y") _ rfl

theorem validateOperator_cases (op : OpDef) (o : Opts) :
    (violatesB op o = true ∧
      validateOperator op o = .error (.policy (notAllowedMsg op.name))) ∨
    (violatesB op o = false ∧ validateOperator op o = .ok ()) := by
  cases hv : violatesB op o
  · right
    refine ⟨rfl, ?_⟩
    unfold validateOperator
    simp [hv]
  · left
    refine ⟨rfl, ?_⟩
    unfold validateOperator
    simp [hv]

/-- parseDate throws exactly on the values normalizing to the proto key. -/
theorem parseDateG_thrown_iff (env : DateEnv) (v : List Char) :
    parseDateG env v = .thrown ↔ dateThrowsV v = true := by
  rw [dateThrowsV, decide_eq_true_eq]
  constructor
  · intro h
    unfold parseDateG at h
    dsimp only at h
    split at h
    · exact DateOutcome.noConfusion h
    · split at h
      · exact DateOutcome.noConfusion h
      · split at h
        · rename_i hp
          exact hp
        · split at h
          · exact DateOutcome.noConfusion h
          · split at h
            · exact DateOutcome.noConfusion h
            · split at h
              · split at h
                · split at h
                  · exact DateOutcome.noConfusion h
                  · exact DateOutcome.noConfusion h
                · exact DateOutcome.noConfusion h
              · exact DateOutcome.noConfusion h
  · intro hp
    have h1 : relMatch (dateNorm v) = none := by rw [hp]; decide
    have h2 : dateNorm v ∉ natKeys := by rw [hp]; decide
    unfold parseDateG
    dsimp only
    rw [h1, if_neg h2, if_pos hp]

/-- buildTerm throws exactly for a date-typed operator whose value
normalizes to the proto key. -/
theorem buildTerm_err_iff (env : DateEnv) (ty v : List Char) (n : Bool) (vt : List Char) :
    (∃ e, buildTerm env ty v n vt = .error e) ↔
      (decide (vt = cs "date") && dateThrowsV v) = true := by
  unfold buildTerm
  by_cases hd : vt = cs "date"
  · rw [if_pos hd, decide_eq_true hd, Bool.true_and, ← parseDateG_thrown_iff env v]
    cases hpd : parseDateG env v with
    | thrown => simp
    | nullR => simp
    | val dv =>
      cases dv with
      | date d => simp
      | range a b => simp
  · rw [if_neg hd, decide_eq_false hd, Bool.false_and]
    split
    · split
      · simp
      · simp
    · simp

/-- Every buildTerm error is the TypeError. -/
theorem buildTerm_err_val (env : DateEnv) (ty v : List Char) (n : Bool) (vt : List Char)
    (e : PErr) (h : buildTerm env ty v n vt = .error e) : e = .typeError := by
  unfold buildTerm at h
  split at h
  · split at h
    · exact (Except.error.inj h).symm
    · exact Except.noConfusion h
    · exact Except.noConfusion h
    · exact Except.noConfusion h
  · split at h
    · split at h
      · exact Except.noConfusion h
      · exact Except.noConfusion h
    · exact Except.noConfusion h

/-- The buildTerm map over a value list errs exactly when the operator is
date typed and some stripped value normalizes to the proto key. -/
theorem buildList_err_iff (env : DateEnv) (opname : List Char) (n : Bool)
    (opty : List Char) :
    ∀ vs : List (List Char),
      (∃ e, buildList env opname n opty vs = .error e) ↔
        (decide (opty = cs "date") &&
          vs.any (fun v => dateThrowsV (stripQuotes v))) = true := by
  intro vs
  induction vs with
  | nil => simp [buildList]
  | cons v rest ih =>
    rw [buildList, List.any_cons]
    constructor
    · rintro ⟨e, he⟩
      split at he
      next e0 hbt =>
        have hcond := (buildTerm_err_iff env opname (stripQuotes v) n opty).1 ⟨_, hbt⟩
        rw [Bool.and_eq_true] at hcond
        obtain ⟨hdd, hdt⟩ := hcond
        rw [Bool.and_eq_true]
        exact ⟨hdd, by rw [hdt]; exact Bool.true_or _⟩
      next tm hbt =>
        split at he
        next e1 hbl =>
          have hcond := ih.1 ⟨_, hbl⟩
          rw [Bool.and_eq_true] at hcond
          obtain ⟨hdd, hany⟩ := hcond
          rw [Bool.and_eq_true]
          refine ⟨hdd, ?_⟩
          rw [hany]
          exact Bool.or_true _
        next ts hbl => exact Except.noConfusion he
    · intro hcond
      rw [Bool.and_eq_true] at hcond
      obtain ⟨hdd, hor⟩ := hcond
      rw [Bool.or_eq_true] at hor
      split
      next e0 hbt => exact ⟨e0, rfl⟩
      next tm hbt =>
        rcases hor with hv | hrest
        · obtain ⟨e, hbt2⟩ := (buildTerm_err_iff env opname (stripQuotes v) n opty).2
            (by rw [Bool.and_eq_true]; exact ⟨hdd, hv⟩)
          rw [hbt] at hbt2
          exact Except.noConfusion hbt2
        · obtain ⟨e, hbl⟩ := ih.2 (by rw [Bool.and_eq_true]; exact ⟨hdd, hrest⟩)
          split
          next e1 hbl2 => exact ⟨e1, rfl⟩
          next ts hbl2 =>
            rw [hbl] at hbl2
            exact Except.noConfusion hbl2

/-- Every buildList error is the TypeError. -/
theorem buildList_err_val (env : DateEnv) (opname : List Char) (n : Bool)
    (opty : List Char) :
    ∀ (vs : List (List Char)) (e : PErr),
      buildList env opname n opty vs = .error e → e = .typeError := by
  intro vs
  induction vs with
  | nil =>
    intro e h
    exact Except.noConfusion h
  | cons v rest ih =>
    intro e h
    rw [buildList] at h
    split at h
    next e0 hbt =>
      obtain rfl := Except.error.inj h
      exact buildTerm_err_val env _ _ _ _ e0 hbt
    next tm hbt =>
      split at h
      next e1 hbl =>
        obtain rfl := Except.error.inj h
        exact ih e1 hbl
      next ts hbl => exact Except.noConfusion h

/-- tokenViolates at a resolved negated operator token. -/
theorem tokenViolates_neg_eq (ops : List OpDef) (o : Opts) (tv traw : List Char)
    (tpos : Nat) (kv : List Char × List Char) (op : OpDef)
    (hc : ':' ∈ tv) (hpo : parseOperatorV tv = some kv)
    (hfo : findOperator kv.1 ops = some op) :
    tokenViolates ops o ⟨.NEGATED, tv, traw, tpos⟩ =
      (op.allowNegation && violatesB op o) := by
  rw [tokenViolates]
  dsimp only
  rw [if_pos hc, hpo]
  dsimp only
  rw [hfo]

/-- tokenThrows at a resolved negated operator token. -/
theorem tokenThrows_neg_eq (ops : List OpDef) (o : Opts) (tv traw : List Char)
    (tpos : Nat) (kv : List Char × List Char) (op : OpDef)
    (hc : ':' ∈ tv) (hpo : parseOperatorV tv = some kv)
    (hfo : findOperator kv.1 ops = some op) :
    tokenThrows ops o ⟨.NEGATED, tv, traw, tpos⟩ =
      (op.allowNegation && !violatesB op o && decide (op.type = cs "date") &&
        (if 1 < (splitValues kv.2).length then
          (splitValues kv.2).any (fun v => dateThrowsV (stripQuotes v))
        else dateThrowsV (stripQuotes kv.2))) := by
  rw [tokenThrows]
  dsimp only
  rw [if_pos hc, hpo]
  dsimp only
  rw [hfo]

/-- tokenViolates at a resolved operator token. -/
theorem tokenViolates_op_eq (ops : List OpDef) (o : Opts) (tv traw : List Char)
    (tpos : Nat) (kv : List Char × List Char) (op : OpDef)
    (hpo : parseOperatorV tv = some kv) (hfo : findOperator kv.1 ops = some op) :
    tokenViolates ops o ⟨.OPERATOR, tv, traw, tpos⟩ = violatesB op o := by
  rw [tokenViolates]
  dsimp only
  rw [hpo]
  dsimp only
  rw [hfo]

/-- tokenThrows at a resolved operator token. -/
theorem tokenThrows_op_eq (ops : List OpDef) (o : Opts) (tv traw : List Char)
    (tpos : Nat) (kv : List Char × List Char) (op : OpDef)
    (hpo : parseOperatorV tv = some kv) (hfo : findOperator kv.1 ops = some op) :
    tokenThrows ops o ⟨.OPERATOR, tv, traw, tpos⟩ =
      (!violatesB op o && decide (op.type = cs "date") &&
        (if 1 < (splitValues kv.2).length then
          (splitValues kv.2).any (fun v => dateThrowsV (stripQuotes v))
        else dateThrowsV (stripQuotes kv.2))) := by
  rw [tokenThrows]
  dsimp only
  rw [hpo]
  dsimp only
  rw [hfo]

/-- parseToken at a resolved negated operator token. -/
theorem parseToken_neg_eq (env : DateEnv) (ops : List OpDef) (o : Opts)
    (tv traw : List Char) (tpos : Nat) (kv : List Char × List Char) (op : OpDef)
    (hc : ':' ∈ tv) (hpo : parseOperatorV tv = some kv)
    (hfo : findOperator kv.1 ops = some op) :
    parseToken env ⟨.NEGATED, tv, traw, tpos⟩ ops o =
      (if op.allowNegation = true then
        match validateOperator op o with
        | .error e => .error e
        | .ok _ =>
          if 1 < (splitValues kv.2).length then
            buildList env op.name true op.type (splitValues kv.2)
          else
            match buildTerm env op.name (stripQuotes kv.2) true op.type with
            | .error e => .error e
            | .ok tm => .ok [tm]
      else .ok [Term.mk (if dqc ∈ traw ∨ sqc ∈ traw then cs "phrase" else cs "text")
        tv true none none none none]) := by
  rw [parseToken]
  dsimp only
  rw [if_pos hc, hpo]
  dsimp only
  rw [hfo]

/-- parseToken at a resolved operator token. -/
theorem parseToken_op_eq (env : DateEnv) (ops : List OpDef) (o : Opts)
    (tv traw : List Char) (tpos : Nat) (kv : List Char × List Char) (op : OpDef)
    (hpo : parseOperatorV tv = some kv) (hfo : findOperator kv.1 ops = some op) :
    parseToken env ⟨.OPERATOR, tv, traw, tpos⟩ ops o =
      (match validateOperator op o with
       | .error e => .error e
       | .ok _ =>
         if 1 < (splitValues kv.2).length then
           match buildList env op.name false op.type (splitValues kv.2) with
           | .error e => .error e
           | .ok subs => .ok [.mk (cs "or") (cs "OR") false none none none (some subs)]
         else
           match buildTerm env op.name (stripQuotes kv.2) false op.type with
           | .error e => .error e
           | .ok tm => .ok [tm]) := by
  rw [parseToken]
  dsimp only
  rw [hpo]
  dsimp only
  rw [hfo]

/-- Trichotomy of parseToken: a policy violation produces the policy error
naming the violating definition, a date-typed proto value past the policy
check produces the TypeError, and otherwise the token resolves to a term
list. -/
theorem parseToken_err_trichotomy (env : DateEnv) (t : Token) (ops : List OpDef)
    (o : Opts) :
    (tokenViolates ops o t = true ∧
      ∃ op, violatesB op o = true ∧
        parseToken env t ops o = .error (.policy (notAllowedMsg op.name))) ∨
    (tokenViolates ops o t = false ∧ tokenThrows ops o t = true ∧
      parseToken env t ops o = .error .typeError) ∨
    (tokenViolates ops o t = false ∧ tokenThrows ops o t = false ∧
      ∃ ts, parseToken env t ops o = .ok ts) := by
  obtain ⟨ty, tv, traw, tpos⟩ := t
  cases ty with
  | TEXT => exact Or.inr (Or.inr ⟨rfl, rfl, _, rfl⟩)
  | QUOTED => exact Or.inr (Or.inr ⟨rfl, rfl, _, rfl⟩)
  | LPAREN => exact Or.inr (Or.inr ⟨rfl, rfl, _, rfl⟩)
  | RPAREN => exact Or.inr (Or.inr ⟨rfl, rfl, _, rfl⟩)
  | OR => exact Or.inr (Or.inr ⟨rfl, rfl, _, rfl⟩)
  | NEGATED =>
    by_cases hc : ':' ∈ tv
    · cases hpo : parseOperatorV tv with
      | none =>
        refine Or.inr (Or.inr ⟨?_, ?_,
          [Term.mk (if dqc ∈ traw ∨ sqc ∈ traw then cs "phrase" else cs "text")
            tv true none none none none], ?_⟩)
        · rw [tokenViolates]
          dsimp only
          rw [if_pos hc, hpo]
        · rw [tokenThrows]
          dsimp only
          rw [if_pos hc, hpo]
        · rw [parseToken]
          dsimp only
          rw [if_pos hc, hpo]
      | some kv =>
        cases hfo : findOperator kv.1 ops with
        | none =>
          refine Or.inr (Or.inr ⟨?_, ?_,
            [Term.mk (if dqc ∈ traw ∨ sqc ∈ traw then cs "phrase" else cs "text")
              tv true none none none none], ?_⟩)
          · rw [tokenViolates]
            dsimp only
            rw [if_pos hc, hpo]
            dsimp only
            rw [hfo]
          · rw [tokenThrows]
            dsimp only
            rw [if_pos hc, hpo]
            dsimp only
            rw [hfo]
          · rw [parseToken]
            dsimp only
            rw [if_pos hc, hpo]
            dsimp only
            rw [hfo]
        | some op =>
          cases hneg : op.allowNegation with
          | false =>
            refine Or.inr (Or.inr ⟨?_, ?_,
              [Term.mk (if dqc ∈ traw ∨ sqc ∈ traw then cs "phrase" else cs "text")
                tv true none none none none], ?_⟩)
            · rw [tokenViolates_neg_eq ops o tv traw tpos kv op hc hpo hfo, hneg]
              rfl
            · rw [tokenThrows_neg_eq ops o tv traw tpos kv op hc hpo hfo, hneg]
              rfl
            · rw [parseToken_neg_eq env ops o tv traw tpos kv op hc hpo hfo,
                if_neg (by rw [hneg]; exact Bool.false_ne_true)]
          | true =>
            rcases validateOperator_cases op o with ⟨hv, hval⟩ | ⟨hv, hval⟩
            · refine Or.inl ⟨?_, op, hv, ?_⟩
              · rw [tokenViolates_neg_eq ops o tv traw tpos kv op hc hpo hfo, hneg, hv]
                rfl
              · rw [parseToken_neg_eq env ops o tv traw tpos kv op hc hpo hfo,
                  if_pos hneg, hval]
            · by_cases hlen : 1 < (splitValues kv.2).length
              · cases hble : buildList env op.name true op.type (splitValues kv.2) with
                | error e =>
                  obtain rfl := buildList_err_val env op.name true op.type _ e hble
                  refine Or.inr (Or.inl ⟨?_, ?_, ?_⟩)
                  · rw [tokenViolates_neg_eq ops o tv traw tpos kv op hc hpo hfo, hneg, hv]
                    rfl
                  · have hcond := (buildList_err_iff env op.name true op.type
                      (splitValues kv.2)).1 ⟨_, hble⟩
                    rw [Bool.and_eq_true] at hcond
                    obtain ⟨hdd, hany⟩ := hcond
                    rw [tokenThrows_neg_eq ops o tv traw tpos kv op hc hpo hfo, hneg, hv,
                      if_pos hlen, hdd, hany]
                    rfl
                  · rw [parseToken_neg_eq env ops o tv traw tpos kv op hc hpo hfo,
                      if_pos hneg, hval]
                    dsimp only
                    rw [if_pos hlen, hble]
                | ok ts1 =>
                  refine Or.inr (Or.inr ⟨?_, ?_, ts1, ?_⟩)
                  · rw [tokenViolates_neg_eq ops o tv traw tpos kv op hc hpo hfo, hneg, hv]
                    rfl
                  · have hcond : (decide (op.type = cs "date") &&
                        (splitValues kv.2).any (fun v => dateThrowsV (stripQuotes v))) =
                          false := by
                      cases hx : decide (op.type = cs "date") &&
                          (splitValues kv.2).any (fun v => dateThrowsV (stripQuotes v))
                      · rfl
                      · obtain ⟨e, he⟩ := (buildList_err_iff env op.name true op.type
                          (splitValues kv.2)).2 hx
                        rw [hble] at he
                        exact Except.noConfusion he
                    rw [tokenThrows_neg_eq ops o tv traw tpos kv op hc hpo hfo, hneg, hv,
                      if_pos hlen]
                    simp only [Bool.not_false, Bool.true_and]
                    exact hcond
                  · rw [parseToken_neg_eq env ops o tv traw tpos kv op hc hpo hfo,
                      if_pos hneg, hval]
                    dsimp only
                    rw [if_pos hlen, hble]
              · cases hbt : buildTerm env op.name (stripQuotes kv.2) true op.type with
                | error e =>
                  obtain rfl := buildTerm_err_val env op.name (stripQuotes kv.2) true
                    op.type e hbt
                  refine Or.inr (Or.inl ⟨?_, ?_, ?_⟩)
                  · rw [tokenViolates_neg_eq ops o tv traw tpos kv op hc hpo hfo, hneg, hv]
                    rfl
                  · have hcond := (buildTerm_err_iff env op.name (stripQuotes kv.2) true
                      op.type).1 ⟨_, hbt⟩
                    rw [Bool.and_eq_true] at hcond
                    obtain ⟨hdd, hdt⟩ := hcond
                    rw [tokenThrows_neg_eq ops o tv traw tpos kv op hc hpo hfo, hneg, hv,
                      if_neg hlen, hdd, hdt]
                    rfl
                  · rw [parseToken_neg_eq env ops o tv traw tpos kv op hc hpo hfo,
                      if_pos hneg, hval]
                    dsimp only
                    rw [if_neg hlen, hbt]
                | ok tm =>
                  refine Or.inr (Or.inr ⟨?_, ?_, [tm], ?_⟩)
                  · rw [tokenViolates_neg_eq ops o tv traw tpos kv op hc hpo hfo, hneg, hv]
                    rfl
                  · have hcond : (decide (op.type = cs "date") &&
                        dateThrowsV (stripQuotes kv.2)) = false := by
                      cases hx : decide (op.type = cs "date") &&
                          dateThrowsV (stripQuotes kv.2)
                      · rfl
                      · obtain ⟨e, he⟩ := (buildTerm_err_iff env op.name (stripQuotes kv.2)
                          true op.type).2 hx
                        rw [hbt] at he
                        exact Except.noConfusion he
                    rw [tokenThrows_neg_eq ops o tv traw tpos kv op hc hpo hfo, hneg, hv,
                      if_neg hlen]
                    simp only [Bool.not_false, Bool.true_and]
                    exact hcond
                  · rw [parseToken_neg_eq env ops o tv traw tpos kv op hc hpo hfo,
                      if_pos hneg, hval]
                    dsimp only
                    rw [if_neg hlen, hbt]
    · refine Or.inr (Or.inr ⟨?_, ?_,
        [Term.mk (if dqc ∈ traw ∨ sqc ∈ traw then cs "phrase" else cs "text")
          tv true none none none none], ?_⟩)
      · rw [tokenViolates]
        dsimp only
        rw [if_neg hc]
      · rw [tokenThrows]
        dsimp only
        rw [if_neg hc]
      · rw [parseToken]
        dsimp only
        rw [if_neg hc]
  | OPERATOR =>
    cases hpo : parseOperatorV tv with
    | none =>
      refine Or.inr (Or.inr ⟨?_, ?_, ([] : List Term), ?_⟩)
      · rw [tokenViolates]
        dsimp only
        rw [hpo]
      · rw [tokenThrows]
        dsimp only
        rw [hpo]
      · rw [parseToken]
        dsimp only
        rw [hpo]
    | some kv =>
      cases hfo : findOperator kv.1 ops with
      | none =>
        refine Or.inr (Or.inr ⟨?_, ?_,
          [Term.mk (cs "text") tv false none none none none], ?_⟩)
        · rw [tokenViolates]
          dsimp only
          rw [hpo]
          dsimp only
          rw [hfo]
        · rw [tokenThrows]
          dsimp only
          rw [hpo]
          dsimp only
          rw [hfo]
        · rw [parseToken]
          dsimp only
          rw [hpo]
          dsimp only
          rw [hfo]
      | some op =>
        rcases validateOperator_cases op o with ⟨hv, hval⟩ | ⟨hv, hval⟩
        · refine Or.inl ⟨?_, op, hv, ?_⟩
          · rw [tokenViolates_op_eq ops o tv traw tpos kv op hpo hfo, hv]
          · rw [parseToken_op_eq env ops o tv traw tpos kv op hpo hfo, hval]
        · by_cases hlen : 1 < (splitValues kv.2).length
          · cases hble : buildList env op.name false op.type (splitValues kv.2) with
            | error e =>
              obtain rfl := buildList_err_val env op.name false op.type _ e hble
              refine Or.inr (Or.inl ⟨?_, ?_, ?_⟩)
              · rw [tokenViolates_op_eq ops o tv traw tpos kv op hpo hfo, hv]
              · have hcond := (buildList_err_iff env op.name false op.type
                  (splitValues kv.2)).1 ⟨_, hble⟩
                rw [Bool.and_eq_true] at hcond
                obtain ⟨hdd, hany⟩ := hcond
                rw [tokenThrows_op_eq ops o tv traw tpos kv op hpo hfo, hv,
                  if_pos hlen, hdd, hany]
                rfl
              · rw [parseToken_op_eq env ops o tv traw tpos kv op hpo hfo, hval]
                dsimp only
                rw [if_pos hlen, hble]
            | ok subs =>
              refine Or.inr (Or.inr ⟨?_, ?_,
                [Term.mk (cs "or") (cs "OR") false none none none (some subs)], ?_⟩)
              · rw [tokenViolates_op_eq ops o tv traw tpos kv op hpo hfo, hv]
              · have hcond : (decide (op.type = cs "date") &&
                    (splitValues kv.2).any (fun v => dateThrowsV (stripQuotes v))) =
                      false := by
                  cases hx : decide (op.type = cs "date") &&
                      (splitValues kv.2).any (fun v => dateThrowsV (stripQuotes v))
                  · rfl
                  · obtain ⟨e, he⟩ := (buildList_err_iff env op.name false op.type
                      (splitValues kv.2)).2 hx
                    rw [hble] at he
                    exact Except.noConfusion he
                rw [tokenThrows_op_eq ops o tv traw tpos kv op hpo hfo, hv, if_pos hlen]
                simp only [Bool.not_false, Bool.true_and]
                exact hcond
              · rw [parseToken_op_eq env ops o tv traw tpos kv op hpo hfo, hval]
                dsimp only
                rw [if_pos hlen, hble]
          · cases hbt : buildTerm env op.name (stripQuotes kv.2) false op.type with
            | error e =>
              obtain rfl := buildTerm_err_val env op.name (stripQuotes kv.2) false
                op.type e hbt
              refine Or.inr (Or.inl ⟨?_, ?_, ?_⟩)
              · rw [tokenViolates_op_eq ops o tv traw tpos kv op hpo hfo, hv]
              · have hcond := (buildTerm_err_iff env op.name (stripQuotes kv.2) false
                  op.type).1 ⟨_, hbt⟩
                rw [Bool.and_eq_true] at hcond
                obtain ⟨hdd, hdt⟩ := hcond
                rw [tokenThrows_op_eq ops o tv traw tpos kv op hpo hfo, hv,
                  if_neg hlen, hdd, hdt]
                rfl
              · rw [parseToken_op_eq env ops o tv traw tpos kv op hpo hfo, hval]
                dsimp only
                rw [if_neg hlen, hbt]
            | ok tm =>
              refine Or.inr (Or.inr ⟨?_, ?_, [tm], ?_⟩)
              · rw [tokenViolates_op_eq ops o tv traw tpos kv op hpo hfo, hv]
              · have hcond : (decide (op.type = cs "date") &&
                    dateThrowsV (stripQuotes kv.2)) = false := by
                  cases hx : decide (op.type = cs "date") &&
                      dateThrowsV (stripQuotes kv.2)
                  · rfl
                  · obtain ⟨e, he⟩ := (buildTerm_err_iff env op.name (stripQuotes kv.2)
                      false op.type).2 hx
                    rw [hbt] at he
                    exact Except.noConfusion he
                rw [tokenThrows_op_eq ops o tv traw tpos kv op hpo hfo, hv, if_neg hlen]
                simp only [Bool.not_false, Bool.true_and]
                exact hcond
              · rw [parseToken_op_eq env ops o tv traw tpos kv op hpo hfo, hval]
                dsimp only
                rw [if_neg hlen, hbt]

/-- A successful matchParen scan splits the list at a GroupClose token. -/
theorem mpGo_struct : ∀ (l : List Token) (bal : Nat) (inner after : List Token),
    1 ≤ bal → mpGo bal l = some (inner, after) →
    ∃ rp, l = inner ++ rp :: after ∧ rp.type = .RPAREN := by
  intro l
  induction l with
  | nil =>
    intro bal inner after hb h
    exact Option.noConfusion h
  | cons t rest ih =>
    intro bal inner after hb h
    rw [mpGo] at h
    by_cases hrp : t.type = .RPAREN
    · have hlp : ¬ t.type = .LPAREN := by rw [hrp]; decide
      rw [if_pos hrp, if_neg hlp] at h
      split at h
      next hz =>
        simp only [Option.some.injEq, Prod.mk.injEq] at h
        obtain ⟨rfl, rfl⟩ := h
        exact ⟨t, rfl, hrp⟩
      next hz =>
        split at h
        next inner0 after0 hmp =>
          simp only [Option.some.injEq, Prod.mk.injEq] at h
          obtain ⟨rfl, rfl⟩ := h
          obtain ⟨rp, hsplit, hrp2⟩ := ih (bal - 1) inner0 after0 (Nat.one_le_iff_ne_zero.2 hz) hmp
          exact ⟨rp, by rw [hsplit]; rfl, hrp2⟩
        next hmp => exact Option.noConfusion h
    · by_cases hlp : t.type = .LPAREN
      · rw [if_neg hrp, if_pos hlp] at h
        rw [if_neg (by omega : ¬ bal + 1 = 0)] at h
        split at h
        next inner0 after0 hmp =>
          simp only [Option.some.injEq, Prod.mk.injEq] at h
          obtain ⟨rfl, rfl⟩ := h
          obtain ⟨rp, hsplit, hrp2⟩ := ih (bal + 1) inner0 after0 (by omega) hmp
          exact ⟨rp, by rw [hsplit]; rfl, hrp2⟩
        next hmp => exact Option.noConfusion h
      · rw [if_neg hrp, if_neg hlp] at h
        rw [if_neg (by omega : ¬ bal = 0)] at h
        split at h
        next inner0 after0 hmp =>
          simp only [Option.some.injEq, Prod.mk.injEq] at h
          obtain ⟨rfl, rfl⟩ := h
          obtain ⟨rp, hsplit, hrp2⟩ := ih bal inner0 after0 hb hmp
          exact ⟨rp, by rw [hsplit]; rfl, hrp2⟩
        next hmp => exact Option.noConfusion h

/-- Fuel above the list length never runs out in the collection loop. -/
theorem collect_suff (env : DateEnv) (ops : List OpDef) (o : Opts) :
    ∀ (fuel : Nat) (l : List Token), l.length < fuel →
      collectF env ops o fuel l ≠ none := by
  intro fuel
  induction fuel with
  | zero =>
    intro l h
    exact absurd h (Nat.not_lt_zero _)
  | succ f ih =>
    intro l hlen
    cases l with
    | nil =>
      rw [collectF]
      exact fun hx => Option.noConfusion hx
    | cons t rest =>
      have hr : rest.length < f := by
        simp only [List.length_cons] at hlen
        omega
      rw [collectF]
      split
      · split
        next inner after hmp =>
          obtain ⟨rp, hsplit, hrpty⟩ := mpGo_struct rest 1 inner after (by omega) hmp
          have hlens : inner.length < f ∧ after.length < f := by
            have hl2 := congrArg List.length hsplit
            simp only [List.length_append, List.length_cons] at hl2
            omega
          split
          next hci => exact absurd hci (ih inner hlens.1)
          next e hci => exact fun hx => Option.noConfusion hx
          next innerRaw hci =>
            split
            next hca => exact absurd hca (ih after hlens.2)
            next e hca => exact fun hx => Option.noConfusion hx
            next restTerms hca => exact fun hx => Option.noConfusion hx
        next hmp => exact ih rest hr
      · split
        · exact ih rest hr
        · split
          · split
            next hcr => exact absurd hcr (ih rest hr)
            next e hcr => exact fun hx => Option.noConfusion hx
            next ts hcr => exact fun hx => Option.noConfusion hx
          · split
            next e hpt => exact fun hx => Option.noConfusion hx
            next ts1 hpt =>
              split
              next hcr => exact absurd hcr (ih rest hr)
              next e hcr => exact fun hx => Option.noConfusion hx
              next ts2 hcr => exact fun hx => Option.noConfusion hx


/-- Prepending a token not satisfying a predicate does not change whether
some token of the list satisfies it. -/
theorem exists_pred_cons_false {p : Token → Bool} {t : Token} {l : List Token}
    (h : p t = false) :
    (∃ x ∈ t :: l, p x = true) ↔ ∃ x ∈ l, p x = true := by
  constructor
  · rintro ⟨u, hu, huv⟩
    rcases List.mem_cons.1 hu with rfl | hu2
    · rw [h] at huv
      exact Bool.noConfusion huv
    · exact ⟨u, hu2, huv⟩
  · rintro ⟨u, hu, huv⟩
    exact ⟨u, List.mem_cons_of_mem _ hu, huv⟩

/-- The collection loop errors exactly when some token of the window
violates the operator policy or reaches the throwing date lookup. -/
theorem collect_err_iff (env : DateEnv) (ops : List OpDef) (o : Opts) :
    ∀ (fuel : Nat) (l : List Token), l.length < fuel →
      ((∃ e, collectF env ops o fuel l = some (.error e)) ↔
        ∃ x ∈ l, (tokenViolates ops o x || tokenThrows ops o x) = true) := by
  intro fuel
  induction fuel with
  | zero =>
    intro l h
    exact absurd h (Nat.not_lt_zero _)
  | succ f ih =>
    intro l hlen
    cases l with
    | nil =>
      rw [collectF]
      simp
    | cons t rest =>
      have hr : rest.length < f := by
        simp only [List.length_cons] at hlen
        omega
      rw [collectF]
      split
      next hlpt =>
        have htv : (tokenViolates ops o t || tokenThrows ops o t) = false := by
          simp [tokenViolates, tokenThrows, hlpt]
        rw [exists_pred_cons_false htv]
        split
        next inner after hmp =>
          obtain ⟨rp, hsplit, hrpty⟩ := mpGo_struct rest 1 inner after (by omega) hmp
          have hlens : inner.length < f ∧ after.length < f := by
            have hl2 := congrArg List.length hsplit
            simp only [List.length_append, List.length_cons] at hl2
            omega
          have hrpv : (tokenViolates ops o rp || tokenThrows ops o rp) = false := by
            simp [tokenViolates, tokenThrows, hrpty]
          have hiffI := ih inner hlens.1
          have hiffA := ih after hlens.2
          subst hsplit
          have hmem : (∃ x ∈ inner ++ rp :: after,
              (tokenViolates ops o x || tokenThrows ops o x) = true) ↔
              ((∃ x ∈ inner, (tokenViolates ops o x || tokenThrows ops o x) = true) ∨
               (∃ x ∈ after, (tokenViolates ops o x || tokenThrows ops o x) = true)) := by
            constructor
            · rintro ⟨u, hu, huv⟩
              rcases List.mem_append.1 hu with hu2 | hu3
              · exact Or.inl ⟨u, hu2, huv⟩
              · rcases List.mem_cons.1 hu3 with rfl | hu4
                · rw [hrpv] at huv
                  exact Bool.noConfusion huv
                · exact Or.inr ⟨u, hu4, huv⟩
            · rintro (⟨u, hu, huv⟩ | ⟨u, hu, huv⟩)
              · exact ⟨u, List.mem_append_left _ hu, huv⟩
              · exact ⟨u, List.mem_append_right _ (List.mem_cons_of_mem _ hu), huv⟩
          rw [hmem]
          split
          next hci => exact absurd hci (collect_suff env ops o f inner hlens.1)
          next e0 hci =>
            exact iff_of_true ⟨e0, rfl⟩ (Or.inl (hiffI.1 ⟨e0, hci⟩))
          next innerRaw hci =>
            have hIfalse : ¬∃ x ∈ inner,
                (tokenViolates ops o x || tokenThrows ops o x) = true := by
              intro hx
              obtain ⟨e, he⟩ := hiffI.2 hx
              rw [hci] at he
              exact Except.noConfusion (Option.some.inj he)
            split
            next hca => exact absurd hca (collect_suff env ops o f after hlens.2)
            next e0 hca =>
              exact iff_of_true ⟨e0, rfl⟩ (Or.inr (hiffA.1 ⟨e0, hca⟩))
            next restTerms hca =>
              have hAfalse : ¬∃ x ∈ after,
                  (tokenViolates ops o x || tokenThrows ops o x) = true := by
                intro hx
                obtain ⟨e, he⟩ := hiffA.2 hx
                rw [hca] at he
                exact Except.noConfusion (Option.some.inj he)
              refine iff_of_false ?_ ?_
              · rintro ⟨e, he⟩
                exact Except.noConfusion (Option.some.inj he)
              · rintro (hx | hx)
                · exact hIfalse hx
                · exact hAfalse hx
        next hmp =>
          exact ih rest hr
      next hlpt =>
        split
        next hrpt =>
          have htv : (tokenViolates ops o t || tokenThrows ops o t) = false := by
            simp [tokenViolates, tokenThrows, hrpt]
          rw [exists_pred_cons_false htv]
          exact ih rest hr
        next hrpt =>
          split
          next hort =>
            have htv : (tokenViolates ops o t || tokenThrows ops o t) = false := by
              simp [tokenViolates, tokenThrows, hort]
            rw [exists_pred_cons_false htv]
            split
            next hcr => exact absurd hcr (collect_suff env ops o f rest hr)
            next e0 hcr => exact iff_of_true ⟨e0, rfl⟩ ((ih rest hr).1 ⟨e0, hcr⟩)
            next ts hcr =>
              refine iff_of_false ?_ ?_
              · rintro ⟨e, he⟩
                exact Except.noConfusion (Option.some.inj he)
              · intro hx
                obtain ⟨e, he⟩ := (ih rest hr).2 hx
                rw [hcr] at he
                exact Except.noConfusion (Option.some.inj he)
          next hort =>
            split
            next e0 hpt =>
              refine iff_of_true ⟨e0, rfl⟩ ⟨t, List.mem_cons_self t rest, ?_⟩
              rcases parseToken_err_trichotomy env t ops o with
                ⟨hviol, op, hvop, herr⟩ | ⟨hviol, hthr, herr⟩ | ⟨hviol, hthr, ts0, hok⟩
              · rw [hviol]
                rfl
              · rw [hthr]
                exact Bool.or_true _
              · rw [hok] at hpt
                exact Except.noConfusion hpt
            next ts1 hpt =>
              have htv : (tokenViolates ops o t || tokenThrows ops o t) = false := by
                rcases parseToken_err_trichotomy env t ops o with
                  ⟨hviol, op, hvop, herr⟩ | ⟨hviol, hthr, herr⟩ | ⟨hviol, hthr, ts0, hok⟩
                · rw [hpt] at herr
                  exact Except.noConfusion herr
                · rw [hpt] at herr
                  exact Except.noConfusion herr
                · rw [hviol, hthr]
                  rfl
              rw [exists_pred_cons_false htv]
              split
              next hcr => exact absurd hcr (collect_suff env ops o f rest hr)
              next e0 hcr => exact iff_of_true ⟨e0, rfl⟩ ((ih rest hr).1 ⟨e0, hcr⟩)
              next ts2 hcr =>
                refine iff_of_false ?_ ?_
                · rintro ⟨e, he⟩
                  exact Except.noConfusion (Option.some.inj he)
                · intro hx
                  obtain ⟨e, he⟩ := (ih rest hr).2 hx
                  rw [hcr] at he
                  exact Except.noConfusion (Option.some.inj he)

/-- Every error the collection loop produces is either the policy message
naming a violating operator definition or the TypeError. -/
theorem collect_err_msg (env : DateEnv) (ops : List OpDef) (o : Opts) :
    ∀ (fuel : Nat) (l : List Token) (e : PErr),
      collectF env ops o fuel l = some (.error e) →
      (∃ op, violatesB op o = true ∧ e = .policy (notAllowedMsg op.name)) ∨
        e = .typeError := by
  intro fuel
  induction fuel with
  | zero =>
    intro l e h
    simp [collectF] at h
  | succ f ih =>
    intro l e h
    cases l with
    | nil =>
      rw [collectF] at h
      exact Except.noConfusion (Option.some.inj h)
    | cons t rest =>
      rw [collectF] at h
      split at h
      · split at h
        · split at h
          · exact Option.noConfusion h
          · rename_i e0 hci
            obtain rfl := Except.error.inj (Option.some.inj h)
            exact ih _ e0 hci
          · rename_i innerRaw hci
            split at h
            · exact Option.noConfusion h
            · rename_i e0 hca
              obtain rfl := Except.error.inj (Option.some.inj h)
              exact ih _ e0 hca
            · exact Except.noConfusion (Option.some.inj h)
        · exact ih _ e h
      · split at h
        · exact ih _ e h
        · split at h
          · split at h
            · exact Option.noConfusion h
            · rename_i e0 hcr
              obtain rfl := Except.error.inj (Option.some.inj h)
              exact ih _ e0 hcr
            · exact Except.noConfusion (Option.some.inj h)
          · split at h
            · rename_i e0 hpt
              obtain rfl := Except.error.inj (Option.some.inj h)
              rcases parseToken_err_trichotomy env t ops o with
                ⟨hviol, op, hvop, herr⟩ | ⟨hviol, hthr, herr⟩ | ⟨hviol, hthr, ts0, hok⟩
              · rw [hpt] at herr
                exact Or.inl ⟨op, hvop, Except.error.inj herr⟩
              · rw [hpt] at herr
                exact Or.inr (Except.error.inj herr)
              · rw [hpt] at hok
                exact Except.noConfusion hok
            · rename_i ts1 hpt
              split at h
              · exact Option.noConfusion h
              · rename_i e0 hcr
                obtain rfl := Except.error.inj (Option.some.inj h)
                exact ih _ e0 hcr
              · exact Except.noConfusion (Option.some.inj h)

/-- A policy error from the collection loop points at a violating token of
the window, and a TypeError at a throwing token. -/
theorem collect_err_kind (env : DateEnv) (ops : List OpDef) (o : Opts) :
    ∀ (fuel : Nat) (l : List Token) (e : PErr),
      collectF env ops o fuel l = some (.error e) →
      ((∃ msg, e = .policy msg) → ∃ t ∈ l, tokenViolates ops o t = true) ∧
      (e = .typeError → ∃ t ∈ l, tokenThrows ops o t = true) := by
  intro fuel
  induction fuel with
  | zero =>
    intro l e h
    simp [collectF] at h
  | succ f ih =>
    intro l e h
    cases l with
    | nil =>
      rw [collectF] at h
      exact Except.noConfusion (Option.some.inj h)
    | cons t rest =>
      have hmono : ∀ (p : Token → Bool), (∃ u ∈ rest, p u = true) →
          ∃ u ∈ t :: rest, p u = true := by
        rintro p ⟨u, hu, hp⟩
        exact ⟨u, List.mem_cons_of_mem _ hu, hp⟩
      rw [collectF] at h
      split at h
      · split at h
        · rename_i inner after hmp
          obtain ⟨rp, hsplit, hrpty⟩ := mpGo_struct rest 1 inner after (Nat.le_refl 1) hmp
          have hsubI : ∀ (p : Token → Bool), (∃ u ∈ inner, p u = true) →
              ∃ u ∈ t :: rest, p u = true := by
            rintro p ⟨u, hu, hp⟩
            refine ⟨u, ?_, hp⟩
            rw [hsplit]
            exact List.mem_cons_of_mem _ (List.mem_append_left _ hu)
          have hsubA : ∀ (p : Token → Bool), (∃ u ∈ after, p u = true) →
              ∃ u ∈ t :: rest, p u = true := by
            rintro p ⟨u, hu, hp⟩
            refine ⟨u, ?_, hp⟩
            rw [hsplit]
            exact List.mem_cons_of_mem _
              (List.mem_append_right _ (List.mem_cons_of_mem _ hu))
          split at h
          · exact Option.noConfusion h
          · rename_i e0 hci
            obtain rfl := Except.error.inj (Option.some.inj h)
            have hk := ih inner e0 hci
            exact ⟨fun hm => hsubI _ (hk.1 hm), fun hte => hsubI _ (hk.2 hte)⟩
          · rename_i innerRaw hci
            split at h
            · exact Option.noConfusion h
            · rename_i e0 hca
              obtain rfl := Except.error.inj (Option.some.inj h)
              have hk := ih after e0 hca
              exact ⟨fun hm => hsubA _ (hk.1 hm), fun hte => hsubA _ (hk.2 hte)⟩
            · exact Except.noConfusion (Option.some.inj h)
        · have hk := ih rest e h
          exact ⟨fun hm => hmono _ (hk.1 hm), fun hte => hmono _ (hk.2 hte)⟩
      · split at h
        · have hk := ih rest e h
          exact ⟨fun hm => hmono _ (hk.1 hm), fun hte => hmono _ (hk.2 hte)⟩
        · split at h
          · split at h
            · exact Option.noConfusion h
            · rename_i e0 hcr
              obtain rfl := Except.error.inj (Option.some.inj h)
              have hk := ih rest e0 hcr
              exact ⟨fun hm => hmono _ (hk.1 hm), fun hte => hmono _ (hk.2 hte)⟩
            · exact Except.noConfusion (Option.some.inj h)
          · split at h
            · rename_i e0 hpt
              obtain rfl := Except.error.inj (Option.some.inj h)
              rcases parseToken_err_trichotomy env t ops o with
                ⟨hviol, op, hvop, herr⟩ | ⟨hviol, hthr, herr⟩ | ⟨hviol, hthr, ts0, hok⟩
              · rw [hpt] at herr
                obtain rfl := Except.error.inj herr
                refine ⟨fun _ => ⟨t, List.mem_cons_self t rest, hviol⟩, fun hte => ?_⟩
                exact PErr.noConfusion hte
              · rw [hpt] at herr
                obtain rfl := Except.error.inj herr
                refine ⟨fun hm => ?_, fun _ => ⟨t, List.mem_cons_self t rest, hthr⟩⟩
                obtain ⟨msg, hmsg⟩ := hm
                exact PErr.noConfusion hmsg
              · rw [hpt] at hok
                exact Except.noConfusion hok
            · rename_i ts1 hpt
              split at h
              · exact Option.noConfusion h
              · rename_i e0 hcr
                obtain rfl := Except.error.inj (Option.some.inj h)
                have hk := ih rest e0 hcr
                exact ⟨fun hm => hmono _ (hk.1 hm), fun hte => hmono _ (hk.2 hte)⟩
              · exact Except.noConfusion (Option.some.inj h)

/-- C6 counterexample: with size disallowed, the input -size:1mb contains a
known operator (size resolves in the default registry) violating the
operatorsDisallowed policy, yet parse succeeds: the negated non-negatable
path never reaches the policy check, so the claimed if-and-only-if fails in
the if direction. -/
theorem error_iff_policy_cx :
    (∃ op, findOperator (cs "size") DEFAULT_OPERATORS = some op ∧
      violatesB op ⟨[], none, some [cs "size"]⟩ = true) ∧
    parseE js0 (cs "-size:1mb") ⟨[], none, some [cs "size"]⟩ =
      some (.ok [Term.mk (cs "text") (cs "size:1mb") true none none none none]) :=
  ⟨⟨_, rfl, rfl⟩, rfl⟩

/-- C6 (amended): whenever tokenization terminates, parse raises exactly
when some token reaches an aborting check: either the policy check fails
(an operator token whose key resolves in the registry and violates the
allowed/disallowed policy, or a negated operator token whose key resolves
to a negatable operator violating it) and the raised message is the policy
message naming a violating definition by canonical name, or a date-typed
value normalizing to the proto key reaches the NATURAL_DATES
prototype-chain lookup and the raised error is that TypeError; every raise
is of one of these two forms, and on windows free of the date artifact a
policy error is raised exactly when some token violates the policy.  The
claimed examples raise naming to and from, date of the proto key raises
the TypeError past the policy check, and otherwise-malformed input
(unknown keys, malformed sizes, unparsable dates, unmatched parentheses)
is absorbed into best-effort output without raising. -/
theorem policy_violation_error_iff :
    (∀ (env : DateEnv) (o : Opts) (input : List Char) (toks : List Token),
      tokenizeF (input.length + 1) input = some toks →
      ((∃ e, parseE env input o = some (.error e)) ↔
        ∃ t ∈ toks, (tokenViolates (o.operators ++ DEFAULT_OPERATORS) o t ||
          tokenThrows (o.operators ++ DEFAULT_OPERATORS) o t) = true)) ∧
    (∀ (env : DateEnv) (o : Opts) (input : List Char) (e : PErr),
      parseE env input o = some (.error e) →
      (∃ op, violatesB op o = true ∧ e = .policy (notAllowedMsg op.name)) ∨
        e = .typeError) ∧
    (∀ (env : DateEnv) (o : Opts) (input : List Char) (toks : List Token),
      tokenizeF (input.length + 1) input = some toks →
      (∀ t ∈ toks, tokenThrows (o.operators ++ DEFAULT_OPERATORS) o t = false) →
      ((∃ e, parseE env input o = some (.error (.policy e))) ↔
        ∃ t ∈ toks, tokenViolates (o.operators ++ DEFAULT_OPERATORS) o t = true)) ∧
    parseE js0 (cs "to:jane") ⟨[], some [cs "from"], none⟩ =
      some (.error (.policy (notAllowedMsg (cs "to")))) ∧
    parseE js0 (cs "from:john") ⟨[], none, some [cs "from"]⟩ =
      some (.error (.policy (notAllowedMsg (cs "from")))) ∧
    parseE js0 (cs "date:__proto__") defaultOpts = some (.error .typeError) ∧
    parseE js0 (cs "unknown:v size:huge date:nope (x") defaultOpts =
      some (.ok [mkLeaf (cs "text") (cs "unknown:v") false,
        mkLeaf (cs "size") (cs "huge") false,
        mkLeaf (cs "date") (cs "nope") false,
        mkLeaf (cs "text") (cs "x") false]) := by
  refine ⟨?_, ?_, ?_, rfl, rfl, rfl, rfl⟩
  · intro env o input toks htoks
    rw [parseE, htoks]
    dsimp only
    have hiff := collect_err_iff env (o.operators ++ DEFAULT_OPERATORS) o
      (toks.length + 1) toks (Nat.lt_succ_self _)
    rw [parseTokensF]
    split
    next hcn =>
      exact absurd hcn (collect_suff env (o.operators ++ DEFAULT_OPERATORS) o
        (toks.length + 1) toks (Nat.lt_succ_self _))
    next e0 hcn => exact iff_of_true ⟨e0, rfl⟩ (hiff.1 ⟨e0, hcn⟩)
    next ts hcn =>
      refine iff_of_false ?_ ?_
      · rintro ⟨e, he⟩
        exact Except.noConfusion (Option.some.inj he)
      · intro hx
        obtain ⟨e, he⟩ := hiff.2 hx
        rw [hcn] at he
        exact Except.noConfusion (Option.some.inj he)
  · intro env o input e h
    rw [parseE] at h
    split at h
    · exact Option.noConfusion h
    · rename_i toks htoks
      rw [parseTokensF] at h
      split at h
      · exact Option.noConfusion h
      · rename_i e0 hcn
        obtain rfl := Except.error.inj (Option.some.inj h)
        exact collect_err_msg env (o.operators ++ DEFAULT_OPERATORS) o _ _ e0 hcn
      · exact Except.noConfusion (Option.some.inj h)
  · intro env o input toks htoks hnothrow
    rw [parseE, htoks]
    dsimp only
    have hiff := collect_err_iff env (o.operators ++ DEFAULT_OPERATORS) o
      (toks.length + 1) toks (Nat.lt_succ_self _)
    rw [parseTokensF]
    split
    next hcn =>
      exact absurd hcn (collect_suff env (o.operators ++ DEFAULT_OPERATORS) o
        (toks.length + 1) toks (Nat.lt_succ_self _))
    next e0 hcn =>
      have hk := collect_err_kind env (o.operators ++ DEFAULT_OPERATORS) o
        (toks.length + 1) toks e0 hcn
      constructor
      · rintro ⟨e, he⟩
        obtain rfl := Except.error.inj (Option.some.inj he)
        exact hk.1 ⟨e, rfl⟩
      · intro hx
        rcases collect_err_msg env (o.operators ++ DEFAULT_OPERATORS) o
            (toks.length + 1) toks e0 hcn with ⟨op, hvop, rfl⟩ | rfl
        · exact ⟨notAllowedMsg op.name, rfl⟩
        · obtain ⟨u, hu, hut⟩ := hk.2 rfl
          rw [hnothrow u hu] at hut
          exact Bool.noConfusion hut
    next ts hcn =>
      refine iff_of_false ?_ ?_
      · rintro ⟨e, he⟩
        exact Except.noConfusion (Option.some.inj he)
      · intro hx
        obtain ⟨u, hu, hut⟩ := hx
        obtain ⟨e, he⟩ := hiff.2 ⟨u, hu, by rw [hut]; exact Bool.true_or _⟩
        rw [hcn] at he
        exact Except.noConfusion (Option.some.inj he)

/-- Witness for the C6 theorem: the any-error and policy-error equivalences
and the message form at the concrete input from:john under
operatorsDisallowed [from]. -/
theorem policy_violation_error_iff_witness :
    ((∃ e, parseE js0 (cs "from:john") ⟨[], none, some [cs "from"]⟩ =
        some (.error e)) ↔
      ∃ t ∈ [Token.mk .OPERATOR (cs "from:john") (cs "from:john") 0],
        (tokenViolates ((⟨[], none, some [cs "from"]⟩ : Opts).operators ++
            DEFAULT_OPERATORS) ⟨[], none, some [cs "from"]⟩ t ||
          tokenThrows ((⟨[], none, some [cs "from"]⟩ : Opts).operators ++
            DEFAULT_OPERATORS) ⟨[], none, some [cs "from"]⟩ t) = true) ∧
    ((∃ e, parseE js0 (cs "from:john") ⟨[], none, some [cs "from"]⟩ =
        some (.error (.policy e))) ↔
      ∃ t ∈ [Token.mk .OPERATOR (cs "from:john") (cs "from:john") 0],
        tokenViolates ((⟨[], none, some [cs "from"]⟩ : Opts).operators ++
          DEFAULT_OPERATORS) ⟨[], none, some [cs "from"]⟩ t = true) ∧
    ((∃ op, violatesB op (⟨[], none, some [cs "from"]⟩ : Opts) = true ∧
        PErr.policy (notAllowedMsg (cs "from")) =
          PErr.policy (notAllowedMsg op.name)) ∨
      PErr.policy (notAllowedMsg (cs "from")) = PErr.typeError) :=
  ⟨policy_violation_error_iff.1 js0 ⟨[], none, some [cs "from"]⟩ (cs "from:john")
      [Token.mk .OPERATOR (cs "from:john") (cs "from:john") 0] rfl,
   policy_violation_error_iff.2.2.1 js0 ⟨[], none, some [cs "from"]⟩ (cs "from:john")
      [Token.mk .OPERATOR (cs "from:john") (cs "from:john") 0] rfl (by decide),
   policy_violation_error_iff.2.1 js0 ⟨[], none, some [cs "from"]⟩ (cs "from:john")
      (.policy (notAllowedMsg (cs "from"))) rfl⟩

end SQP
